import Mathlib

/-!
# Verification of the bible.com chapter-content parser and verse assembler

This file gives a shallow embedding, in Lean 4, of the core parsing and
verse-assembly logic of the scraper (source: src/index.ts, class
BibleScraperUtils and the chapter-walk methods of class BibleScraper), and
proves or refutes the specification claims about it.

Modelling conventions:
* JavaScript strings are Lean Strings; most of the character-level work is
  done on List Char (String.data).
* JavaScript numbers that can be NaN are modelled as Option Nat, with none
  playing the role of NaN.  Number(s) is modelled for the inputs that occur
  here: the empty string (value 0), strings of decimal digits, and anything
  else mapping to NaN.
* DOM element handles are modelled by records carrying exactly the
  capabilities the walk queries: a className, an optional data-usfm
  attribute, a textContent, and child spans.
* textContent of an element is a String; the JavaScript truthiness checks
  of the source become explicit comparisons with the empty string.
-/

/-- JavaScript whitespace characters as used by trim and the split regex;
restricted to the ASCII whitespace characters. -/
def jsWs (c : Char) : Bool :=
  c = ' ' || c = '\t' || c = '\n' || c = '\r' || c = '\x0b' || c = '\x0c'

/-- Left trim on character lists. -/
def trimLeftL (l : List Char) : List Char := l.dropWhile jsWs

/-- JavaScript String.prototype.trim on character lists. -/
def trimL (l : List Char) : List Char :=
  trimLeftL ((trimLeftL l.reverse).reverse)

/-- JavaScript String.prototype.trim. -/
def jsTrim (s : String) : String := String.mk (trimL s.data)

/-- One step of the right fold implementing the JavaScript split on runs
of whitespace: a whitespace character closes the piece to its right and
opens a new one, while consecutive whitespace characters extend the same
separator run (tracked by the boolean); any other character is prepended
to the current piece. -/
def splitWsStep (c : Char) (st : List (List Char) × Bool) : List (List Char) × Bool :=
  if jsWs c then
    (if st.2 then st.1 else [] :: st.1, true)
  else
    ((match st.1 with
      | p :: ps => (c :: p) :: ps
      | [] => [[c]]), false)

/-- JavaScript split on the regex of one-or-more whitespace characters:
each maximal whitespace run is one separator. -/
def splitWsRuns (l : List Char) : List (List Char) :=
  (l.foldr splitWsStep ([[]], false)).1

/-- JavaScript Array.prototype.join with a single-space separator. -/
def joinSpace : List (List Char) → List Char
  | [] => []
  | [p] => p
  | p :: ps => p ++ ' ' :: joinSpace ps

/-- JavaScript String.prototype.replaceAll for a two-character pattern
p0 p1 replaced by the single character r: scan left to right, replace
non-overlapping occurrences, continue after each replacement. -/
def replaceAllPair (p0 p1 r : Char) : List Char → List Char
  | [] => []
  | [c] => [c]
  | c :: d :: rest =>
    if c = p0 && d = p1 then r :: replaceAllPair p0 p1 r rest
    else c :: replaceAllPair p0 p1 r (d :: rest)

/-- BibleScraperUtils.cleanText on character lists:
trim, collapse whitespace runs (split on whitespace then join with a
single space), then remove the space before a period and before a comma. -/
def cleanTextL (l : List Char) : List Char :=
  replaceAllPair ' ' ',' ','
    (replaceAllPair ' ' '.' '.' (joinSpace (splitWsRuns (trimL l))))

/-- BibleScraperUtils.cleanText (src/index.ts lines 827-834). -/
def cleanText (s : String) : String := String.mk (cleanTextL s.data)

/-- JavaScript String.prototype.toLowerCase, modelled for the basic latin
range via the character-wise lowering of each character. -/
def jsToLower (s : String) : String := String.mk (s.data.map Char.toLower)

/-- JavaScript String.prototype.toUpperCase, modelled for the basic latin
range via the character-wise uppering of each character. -/
def jsToUpper (s : String) : String := String.mk (s.data.map Char.toUpper)

/-- A word character in the sense of the regex class backslash-w:
ASCII letters, digits, and the underscore. -/
def isWordChar (c : Char) : Bool := c.isAlphanum || c = '_'

/-- A character of the hash group of the class-name regex: the class
[a-z0-9] under the case-insensitive flag. -/
def isHashChar (c : Char) : Bool := c.isAlpha || c.isDigit

/-- Longest candidate for the category capture group of the class-name
regex, starting at the current position: the longest run X of word
characters such that X is followed by two underscores and at least one
hash character.  Mirrors the greedy backtracking of the regex engine on
the group pattern; returns none when no split works. -/
def catTail : List Char → Option (List Char)
  | [] => none
  | c :: rest =>
    match (if isWordChar c then (catTail rest).map (fun x => c :: x) else none) with
    | some x => some x
    | none =>
      match c :: rest with
      | '_' :: '_' :: h :: _ => if isHashChar h then some [] else none
      | _ => none

/-- The literal prefix of the class-name pattern. -/
def ccLit : List Char := "chaptercontent_".data

/-- Scan for the first position at which the class-name regex matches and
return its category capture group: the regex engine tries every start
index in order, and the pattern only matches where the lowercased literal
chaptercontent underscore occurs and a nonempty word-character group
followed by a double underscore and a hash character follows. -/
def ccScan : List Char → Option (List Char)
  | [] => none
  | c :: rest =>
    if ccLit.isPrefixOf (c :: rest) then
      match catTail (List.drop ccLit.length (c :: rest)) with
      | some x => if x = [] then ccScan rest else some x
      | none => ccScan rest
    else ccScan rest

/-- BibleScraperUtils.cleanChapterContentClass (src/index.ts lines
767-778): lowercase the class attribute, match the pattern
chaptercontent underscore, category, double underscore, hash, and return
the category capture group, or the empty string when there is no match. -/
def cleanChapterContentClass (chapterContentClass : String) : String :=
  match ccScan (jsToLower chapterContentClass).data with
  | some x => String.mk x
  | none => ""

/-- Substring test on character lists (the semantics of an unanchored
regex test for a literal pattern). -/
def containsSub (pat : List Char) : List Char → Bool
  | [] => pat.isPrefixOf []
  | c :: rest => pat.isPrefixOf (c :: rest) || containsSub pat rest

/-- The ten heading-container stems tested by
BibleScraperUtils.isHeadingTopContainer.  Each source pattern is an
unanchored case-insensitive test whose optional trailing digit group
never affects whether the test succeeds, so each test is equivalent to a
substring test for its literal stem on the lowercased input. -/
def headingStems : List (List Char) :=
  ["mt".data, "mte".data, "ms".data, "mr".data, "s".data,
   "sr".data, "r".data, "d".data, "sp".data, "sd".data]

/-- BibleScraperUtils.isHeadingTopContainer (src/index.ts lines 793-808):
true when any of the ten unanchored heading patterns tests true on the
input. -/
def isHeadingTopContainer (input : String) : Bool :=
  headingStems.any (fun pat => containsSub pat (jsToLower input).data)

/-- Value of a string of decimal digits. -/
def digitsVal (l : List Char) : Nat :=
  l.foldl (fun a c => a * 10 + (c.toNat - 48)) 0

/-- JavaScript Number(s), modelled as Option Nat with none for NaN, for
the inputs that occur here: the empty string has value 0, a nonempty
string of decimal digits has its decimal value, and every other string is
NaN.  (Signs, fractions, exponents and radix prefixes do not occur in the
class names and references this code handles.) -/
def jsNumberNat (s : String) : Option Nat :=
  if s.data = [] then some 0
  else if s.data.all Char.isDigit then some (digitsVal s.data)
  else none

/-- First match of the compound-chapter regex, digits underscore digits,
scanning start positions left to right; returns the first capture group
(the digit run before the underscore). -/
def findCompound : List Char → Option (List Char)
  | [] => none
  | c :: rest =>
    if c.isDigit then
      match (c :: rest).dropWhile Char.isDigit with
      | '_' :: d :: _ =>
        if d.isDigit then some ((c :: rest).takeWhile Char.isDigit)
        else findCompound rest
      | _ => findCompound rest
    else findCompound rest

/-- BibleScraperUtils.getNumberFromChapter (src/index.ts lines 813-822):
when the input contains digits underscore digits, the numeric value of
the digit run before the underscore; otherwise Number(input). -/
def getNumberFromChapter (input : String) : Option Nat :=
  match findCompound input.data with
  | some run => jsNumberNat (String.mk run)
  | none => jsNumberNat input

/-- getNumberFromChapter applied to a possibly-undefined array element:
the regex test coerces undefined to the string undefined, which does not
match, and Number(undefined) is NaN. -/
def getNumberFromChapterOpt : Option String → Option Nat
  | none => none
  | some s => getNumberFromChapter s

/-- Number applied to a possibly-undefined array element. -/
def jsNumberOpt : Option String → Option Nat
  | none => none
  | some s => jsNumberNat s

/-- String conversion of a JavaScript number that may be NaN. -/
def numToString : Option Nat → String
  | none => "NaN"
  | some n => toString n

/-- JavaScript String.prototype.padStart(3, "0"). -/
def padStart3 (s : String) : String :=
  if s.length < 3 then String.mk (List.replicate (3 - s.length) '0') ++ s
  else s

/-- BibleScraperUtils.getVerseId (src/index.ts lines 783-788): the book
number unpadded, then the chapter and the order each zero-padded to three
digits. -/
def getVerseId (book : Nat) (chapter : Option Nat) (order : Nat) : String :=
  toString book ++ padStart3 (numToString chapter) ++ padStart3 (toString order)

/-! ## Data model of the chapter walk -/

/-- One emitted scripture unit (interface Verse, src/index.ts lines
73-82).  The numeric chapter and verse fields can be NaN in the source
and are therefore Option Nat here. -/
structure Verse where
  id : String
  b : Nat
  c : Option Nat
  v : Option Nat
  t : String
  h : String
  o : Nat
  l : String
deriving Repr, DecidableEq

/-- A pending heading keyed by the order it should attach to (interface
HeaderItem, src/index.ts lines 90-93). -/
structure HeaderItem where
  target_order : Nat
  text : String
deriving Repr, DecidableEq

/-- A child span one level below a verse or heading span: exposes its
class attribute and its rendered text. -/
structure SubSpan where
  className : String
  textContent : String
deriving Repr, DecidableEq

/-- A direct span child of a top-level chapter group: exposes its class
attribute, its optional data-usfm attribute, its rendered text and its
child spans. -/
structure Span where
  className : String
  dataUsfm : Option String
  textContent : String
  subSpans : List SubSpan
deriving Repr, DecidableEq

/-- A top-level structural group of a chapter (a div or table child of
the chapter container).  The walk queries either the direct child spans
or, for a table group, the spans nested in table cells; both query
results are carried here and the walk selects between them exactly as the
source selects its selector. -/
structure ChapterGroup where
  className : String
  spans : List Span
  cellSpans : List Span
deriving Repr, DecidableEq

/-- The part of a BookResult the chapter walk touches: the ordered verse
records and the per-chapter running verse tally (cv_v_key), the latter as
an association list keyed by chapter number. -/
structure BookResultState where
  verses : List Verse
  cv_v_key : List (Nat × Nat)
deriving Repr, DecidableEq

/-- The mutable state threaded through one chapter walk: the working
scratch verse, the boundary-detection registers, the pending headings,
the two counters, and the book-level output being appended to. -/
structure WalkState where
  lastVerseUsfm : String
  lastVerseLabel : String
  resultVerse : Verse
  saveHeaders : List HeaderItem
  chapterVerseOrderCounter : Nat
  headerOrderCounter : Nat
  verses : List Verse
  cv_v_key : List (Nat × Nat)
deriving Repr, DecidableEq

/-- JavaScript truthiness of a nullable string attribute: null and the
empty string are falsy. -/
def jsTruthy : Option String → Option String
  | none => none
  | some s => if s = "" then none else some s

/-- Append text to the first pending heading whose target order matches
(the source finds the item and mutates its text in place). -/
def bumpFirstHeader (t : Nat) (txt : String) : List HeaderItem → List HeaderItem
  | [] => []
  | h :: rest =>
    if h.target_order = t then { h with text := h.text ++ txt } :: rest
    else h :: bumpFirstHeader t txt rest

/-- BibleScraper.processHeading (src/index.ts lines 1391-1415): on a
truthy heading text, uppercase it when the category is nd, then merge it
into the pending heading at target order headerOrderCounter + 1 or create
that pending heading. -/
def processHeading (headingText : String) (parentVersesType : String)
    (saveHeaders : List HeaderItem) (headerOrderCounter : Nat) : List HeaderItem :=
  if headingText = "" then saveHeaders
  else if (saveHeaders.find? (fun el => el.target_order == headerOrderCounter + 1)).isSome then
    bumpFirstHeader (headerOrderCounter + 1)
      (if parentVersesType = "nd" then jsToUpper headingText else headingText) saveHeaders
  else
    saveHeaders ++
      [⟨headerOrderCounter + 1,
        if parentVersesType = "nd" then jsToUpper headingText else headingText⟩]

/-- The label-extraction loop at the start of BibleScraper.processVerse
(src/index.ts lines 1449-1464): the first child span of category label
with truthy text, or the empty string. -/
def currentLabelOf : List SubSpan → String
  | [] => ""
  | sub :: rest =>
    if cleanChapterContentClass sub.className = "label" ∧ sub.textContent ≠ "" then
      sub.textContent
    else currentLabelOf rest

/-- The content-accumulation loop of BibleScraper.processVerse
(src/index.ts lines 1528-1555): a label child with truthy text is stored
in the label field; a note child is ignored; nd and sc children append
their uppercased text with no leading space; every other child appends
its text with one leading space. -/
def accumulateContent (subs : List SubSpan) (rv : Verse) : Verse :=
  subs.foldl
    (fun rv sub =>
      let childVersesType := cleanChapterContentClass sub.className
      if childVersesType = "label" then
        if sub.textContent ≠ "" then { rv with l := sub.textContent } else rv
      else if childVersesType ≠ "note" then
        if sub.textContent ≠ "" then
          if childVersesType = "nd" then { rv with t := rv.t ++ jsToUpper sub.textContent }
          else if childVersesType = "sc" then { rv with t := rv.t ++ jsToUpper sub.textContent }
          else { rv with t := rv.t ++ " " ++ sub.textContent }
        else rv
      else rv)
    rv

/-- The emission block of BibleScraper.processVerse (src/index.ts lines
1490-1521): advance both counters, stamp book, order and id on the
scratch verse, clean its text, consume a pending heading at the new
order, push a copy, then reset the heading and text fields and the
boundary registers. -/
def emitNewVerse (verseUsfm currentLabel : String) (bookNumber : Nat)
    (st : WalkState) : WalkState :=
  let cnt := st.chapterVerseOrderCounter + 1
  let rv0 := st.resultVerse
  let rv1 : Verse :=
    { rv0 with
      b := bookNumber, o := cnt,
      id := getVerseId bookNumber rv0.c cnt,
      t := cleanText rv0.t }
  let found := st.saveHeaders.find? (fun el => el.target_order == cnt)
  let rv2 : Verse :=
    match found with
    | some he => { rv1 with h := jsTrim he.text }
    | none => rv1
  let headers :=
    match found with
    | some _ => st.saveHeaders.eraseP (fun el => el.target_order == cnt)
    | none => st.saveHeaders
  { st with
    chapterVerseOrderCounter := cnt,
    headerOrderCounter := st.headerOrderCounter + 1,
    verses := st.verses ++ [rv2],
    saveHeaders := headers,
    resultVerse := { rv2 with h := "", t := "" },
    lastVerseUsfm := verseUsfm,
    lastVerseLabel := currentLabel }

/-- JavaScript String.prototype.replaceAll for the single-character
pattern plus replaced by a period (characterwise replacement). -/
def replacePlusDot (s : String) : String :=
  String.mk (s.data.map (fun c => if c = '+' then '.' else c))

/-- JavaScript String.prototype.split with a single-character separator. -/
def splitOnChar (sep : Char) : List Char → List (List Char)
  | [] => [[]]
  | c :: rest =>
    if c = sep then [] :: splitOnChar sep rest
    else
      match splitOnChar sep rest with
      | p :: ps => (c :: p) :: ps
      | [] => [[c]]

/-- The reference-update and accumulation tail of
BibleScraper.processVerse (src/index.ts lines 1523-1555): split the
usfm on separators, take the chapter from component 1 and the verse
number from component 2, then run the content loop. -/
def updateRefAndText (ccsp : Span) (verseUsfm : String) (st : WalkState) : WalkState :=
  let vusplit := (splitOnChar '.' (replacePlusDot verseUsfm).data).map String.mk
  let rv :=
    { st.resultVerse with
      c := getNumberFromChapterOpt vusplit[1]?,
      v := jsNumberOpt vusplit[2]? }
  { st with resultVerse := accumulateContent ccsp.subSpans rv }

/-- BibleScraper.processVerse (src/index.ts lines 1417-1564).  A falsy
data-usfm leaves the state untouched.  Otherwise: on the first verse of
the chapter the boundary registers are seeded and the header counter
advanced without emitting; when the reference changes, or the reference
is unchanged but a nonempty label differs from the last seen label, the
current verse is emitted; in every truthy case the chapter and verse
fields are refreshed from the current reference and the content loop
runs. -/
def processVerse (ccsp : Span) (bookNumber : Nat) (st : WalkState) : WalkState :=
  match jsTruthy ccsp.dataUsfm with
  | none => st
  | some verseUsfm =>
    let currentLabel := currentLabelOf ccsp.subSpans
    let st1 :=
      if st.lastVerseUsfm = "" then
        { st with
          lastVerseUsfm := verseUsfm,
          lastVerseLabel := currentLabel,
          headerOrderCounter := st.headerOrderCounter + 1 }
      else if verseUsfm ≠ st.lastVerseUsfm ∨
              (currentLabel ≠ "" ∧ currentLabel ≠ st.lastVerseLabel) then
        emitNewVerse verseUsfm currentLabel bookNumber st
      else st
    updateRefAndText ccsp verseUsfm st1

/-- Update of the per-chapter verse tally in finalizeVerse: add to the
entry for the current chapter or create it. -/
def cvUpdate (cv : List (Nat × Nat)) (ch cnt : Nat) : List (Nat × Nat) :=
  if (cv.find? (fun p => p.1 == ch)).isSome then
    cv.map (fun p => if p.1 = ch then (p.1, p.2 + cnt) else p)
  else cv ++ [(ch, cnt)]

/-- BibleScraper.finalizeVerse (src/index.ts lines 1566-1608): stamp
book, order and id on the scratch verse, update the chapter tally, clean
the text, consume the first pending heading whose target order is the
given order or the given order plus one, push a copy, and reset the
heading and text fields.  The counters and boundary registers are not
touched. -/
def finalizeVerse (cnt bookNumber currentChapter : Nat) (st : WalkState) : WalkState :=
  let rv0 := st.resultVerse
  let rv1 : Verse :=
    { rv0 with
      b := bookNumber, o := cnt,
      id := getVerseId bookNumber rv0.c cnt,
      t := cleanText rv0.t }
  let cv := cvUpdate st.cv_v_key currentChapter cnt
  let found := st.saveHeaders.find?
    (fun el => el.target_order == cnt || el.target_order == cnt + 1)
  let rv2 : Verse :=
    match found with
    | some he => { rv1 with h := jsTrim he.text }
    | none => rv1
  let headers :=
    match found with
    | some _ => st.saveHeaders.eraseP
        (fun el => el.target_order == cnt || el.target_order == cnt + 1)
    | none => st.saveHeaders
  { st with
    verses := st.verses ++ [rv2],
    cv_v_key := cv,
    saveHeaders := headers,
    resultVerse := { rv2 with h := "", t := "" } }

/-- One iteration of the inner span loop of
BibleScraper.processChapterContent (src/index.ts lines 1330-1374):
classify the span; heading and nd spans go to processHeading, verse
spans go to processVerse, and when the very last span of the last group
is a verse span the end-of-chapter finalize fires with order
chapterVerseOrderCounter + 1. -/
def spanStep (bookNumber currentChapter : Nat) (isLastGroup isLastSpan : Bool)
    (ccsp : Span) (st : WalkState) : WalkState :=
  if cleanChapterContentClass ccsp.className = "heading" ∨
      cleanChapterContentClass ccsp.className = "nd" then
    { st with
      saveHeaders :=
        processHeading ccsp.textContent (cleanChapterContentClass ccsp.className)
          st.saveHeaders st.headerOrderCounter }
  else if cleanChapterContentClass ccsp.className = "verse" then
    if isLastGroup && isLastSpan then
      finalizeVerse ((processVerse ccsp bookNumber st).chapterVerseOrderCounter + 1)
        bookNumber currentChapter (processVerse ccsp bookNumber st)
    else processVerse ccsp bookNumber st
  else st

/-- The inner span loop (src/index.ts lines 1330-1375). -/
def walkSpans (bookNumber currentChapter : Nat) (isLastGroup : Bool) :
    List Span → WalkState → WalkState
  | [], st => st
  | ccsp :: rest, st =>
    walkSpans bookNumber currentChapter isLastGroup rest
      (spanStep bookNumber currentChapter isLastGroup rest.isEmpty ccsp st)

/-- The newline merge at the top of the group loop (src/index.ts lines
1319-1323): entering a top-level heading container appends a newline to
the text of the first pending heading when that text is nonempty. -/
def nlMerge : List HeaderItem → List HeaderItem
  | [] => []
  | h :: rest => if h.text ≠ "" then { h with text := h.text ++ "\n" } :: rest else h :: rest

/-- The spans the group loop selects for a group: table-cell spans for a
table group, direct child spans otherwise (src/index.ts lines
1325-1328). -/
def selectSpans (g : ChapterGroup) : List Span :=
  if cleanChapterContentClass g.className = "table" then g.cellSpans else g.spans

/-- One iteration of the group loop of
BibleScraper.processChapterContent (src/index.ts lines 1313-1388):
classify the group, run the newline merge for heading containers, select
direct spans or table-cell spans, run the span loop, and when the last
group has category b run the end-of-chapter finalize with order
chapterVerseOrderCounter + 1. -/
def groupStep (bookNumber currentChapter : Nat) (isLastGroup : Bool)
    (cc : ChapterGroup) (st : WalkState) : WalkState :=
  let st1 :=
    if isHeadingTopContainer (cleanChapterContentClass cc.className) then
      { st with saveHeaders := nlMerge st.saveHeaders }
    else st
  let st2 := walkSpans bookNumber currentChapter isLastGroup (selectSpans cc) st1
  if isLastGroup && (cleanChapterContentClass cc.className == "b") then
    finalizeVerse (st2.chapterVerseOrderCounter + 1) bookNumber currentChapter st2
  else st2

/-- The group loop (src/index.ts lines 1313-1388). -/
def walkGroups (bookNumber currentChapter : Nat) :
    List ChapterGroup → WalkState → WalkState
  | [], st => st
  | cc :: rest, st =>
    walkGroups bookNumber currentChapter rest
      (groupStep bookNumber currentChapter rest.isEmpty cc st)

/-- The fresh per-chapter state of BibleScraper.processChapterContent
(src/index.ts lines 1295-1310), carrying the book-level output. -/
def initWalkState (bookNumber : Nat) (bookResult : BookResultState) : WalkState :=
  { lastVerseUsfm := "",
    lastVerseLabel := "",
    resultVerse :=
      { id := "", b := bookNumber, c := some 0, v := some 0,
        t := "", h := "", o := 0, l := "" },
    saveHeaders := [],
    chapterVerseOrderCounter := 0,
    headerOrderCounter := 0,
    verses := bookResult.verses,
    cv_v_key := bookResult.cv_v_key }

/-- BibleScraper.processChapterContent (src/index.ts lines 1286-1389):
one chapter walk over the classified top-level groups, appending to the
book result. -/
def processChapterContent (chapterChildren : List ChapterGroup)
    (bookNumber currentChapter : Nat) (bookResult : BookResultState) : BookResultState :=
  let st := walkGroups bookNumber currentChapter chapterChildren
    (initWalkState bookNumber bookResult)
  { verses := st.verses, cv_v_key := st.cv_v_key }

/-- The per-book chapter sequence: each chapter is walked with fresh
per-chapter state while the book result accumulates (the chapter loop of
BibleScraper.processBook). -/
def runChapters (bookNumber : Nat) (chapters : List (Nat × List ChapterGroup))
    (bookResult : BookResultState) : BookResultState :=
  chapters.foldl
    (fun br ch => processChapterContent ch.2 bookNumber ch.1 br) bookResult

/-- The empty book result. -/
def emptyBookResult : BookResultState := { verses := [], cv_v_key := [] }

/-! ## Concrete fixtures

Synthetic chapter fragments built from the class names the source site
uses, for witnesses and counterexamples. -/

/-- A child span of category label carrying a sub-verse label. -/
def labelSub (lbl : String) : SubSpan :=
  { className := "ChapterContent_label__R2PLt", textContent := lbl }

/-- A child span of category content carrying verse text. -/
def contentSub (txt : String) : SubSpan :=
  { className := "ChapterContent_content__RrUqA", textContent := txt }

/-- A verse span with a reference, a label child and a content child. -/
def vSpan (u lbl txt : String) : Span :=
  { className := "ChapterContent_verse__57FIw", dataUsfm := some u,
    textContent := txt, subSpans := [labelSub lbl, contentSub txt] }

/-- A heading span. -/
def hSpan (txt : String) : Span :=
  { className := "ChapterContent_heading__xBDcs", dataUsfm := none,
    textContent := txt, subSpans := [] }

/-- An ordinary paragraph group. -/
def pGroup (sps : List Span) : ChapterGroup :=
  { className := "ChapterContent_p__dVKHb", spans := sps, cellSpans := [] }

/-- A blank-paragraph group (category b). -/
def bGroup (sps : List Span) : ChapterGroup :=
  { className := "ChapterContent_b__4aCLd", spans := sps, cellSpans := [] }

/-! ## Derived walk predicates used in the claim statements -/

/-- Whether the last span of a list has category verse (the trigger of
the per-fragment end-of-chapter finalize). -/
def lastIsVerse (spans : List Span) : Bool :=
  match spans.getLast? with
  | some sp => cleanChapterContentClass sp.className == "verse"
  | none => false

/-- The chapter streams for which the two end-of-chapter finalize
triggers cannot both fire: the last group must not combine category b
with a final verse-category span. -/
def lastGroupSafe (groups : List ChapterGroup) : Bool :=
  match groups.getLast? with
  | some g =>
    !(cleanChapterContentClass g.className == "b" && lastIsVerse (selectSpans g))
  | none => true

/-- No selected span of any group has category verse. -/
def noVerseSpans (groups : List ChapterGroup) : Bool :=
  groups.all (fun g =>
    (selectSpans g).all (fun sp => !(cleanChapterContentClass sp.className == "verse")))

/-- The last group, if any, does not have category b. -/
def lastNotB (groups : List ChapterGroup) : Bool :=
  match groups.getLast? with
  | some g => !(cleanChapterContentClass g.className == "b")
  | none => true

/-- Orders strictly increase along the emitted list. -/
def Rord (a b : Verse) : Prop := a.o < b.o

/-- The running invariant of the chapter walk: emitted orders strictly
increase, every emitted order is bounded by the running order counter,
and every emitted id is the id codec applied to the record's own book,
chapter and order fields. -/
def walkInv (bk : Nat) (st : WalkState) : Prop :=
  st.verses.Pairwise Rord ∧
  (∀ v ∈ st.verses, v.o ≤ st.chapterVerseOrderCounter) ∧
  (∀ v ∈ st.verses, v.id = getVerseId bk v.c v.o)

/-- The part of the invariant that survives the end-of-chapter finalize
(which emits at counter plus one without advancing the counter). -/
def walkDone (bk : Nat) (st : WalkState) : Prop :=
  st.verses.Pairwise Rord ∧
  (∀ v ∈ st.verses, v.id = getVerseId bk v.c v.o)

/-- Pending headings ordered by their target order. -/
def Rtar (a b : HeaderItem) : Prop := a.target_order < b.target_order

/-- The pending-heading invariant: the list is strictly ordered by
target order and every target order is at most the header counter plus
one (the next target a heading could be recorded at). -/
def headersOK (l : List HeaderItem) (hcnt : Nat) : Prop :=
  l.Pairwise Rtar ∧ ∀ it ∈ l, it.target_order ≤ hcnt + 1

/-- The pending-heading invariant read off a walk state. -/
def hdrInv (st : WalkState) : Prop :=
  headersOK st.saveHeaders st.headerOrderCounter

/-! ## Normal form of cleaned text

Proof-side characterizations used to establish that cleanText is
idempotent: a direct one-pass collapse function equal to the
split-and-join composition, and the normal-form predicate satisfied by
every cleanText output and fixed by every cleanText stage. -/

/-- Whether a list starts with a whitespace character. -/
def wsHead : List Char → Bool
  | [] => false
  | c :: _ => jsWs c

/-- One-pass whitespace collapse: outside a separator run a whitespace
character emits one space and enters the run; inside the run further
whitespace is skipped; any other character is copied and leaves the
run.  Equals the split-then-join composition (collapseF_spec). -/
def collapseF : Bool → List Char → List Char
  | _, [] => []
  | inRun, c :: rest =>
    if jsWs c then
      (if inRun then collapseF true rest else ' ' :: collapseF true rest)
    else c :: collapseF false rest

/-- Only plain spaces among the whitespace characters. -/
def onlySp (l : List Char) : Prop := ∀ c ∈ l, jsWs c = true → c = ' '

/-- The list does not start with a space. -/
def noLeadSp (l : List Char) : Prop := l.head? ≠ some ' '

/-- The list does not end with a space. -/
def noTrailSp (l : List Char) : Prop := l.getLast? ≠ some ' '

/-- No space directly followed by the given character. -/
def noPair (y : Char) (l : List Char) : Prop :=
  l.Chain' (fun a b => ¬(a = ' ' ∧ b = y))

/-- The normal form of cleaned text: only plain spaces, no leading or
trailing space, no double space, and no space before a period or a
comma. -/
def CleanNF (l : List Char) : Prop :=
  onlySp l ∧ noLeadSp l ∧ noTrailSp l ∧
  noPair ' ' l ∧ noPair '.' l ∧ noPair ',' l

/-! ## Character-level helper lemmas -/

theorem char_toNat_ofNat (n : Nat) (h : n < 55296) : (Char.ofNat n).toNat = n := by
  rw [Char.ofNat, dif_pos (Or.inl h)]
  simp [Char.ofNatAux, Char.toNat, UInt32.ofNat', UInt32.toNat]

theorem isUpper_iff (c : Char) : c.isUpper = true ↔ (65 ≤ c.toNat ∧ c.toNat ≤ 90) := by
  simp [Char.isUpper, UInt32.le_def, BitVec.le_def, Char.toNat, UInt32.toNat]

theorem toLower_idem (c : Char) : c.toLower.toLower = c.toLower := by
  unfold Char.toLower
  by_cases h : c.toNat ≥ 65 ∧ c.toNat ≤ 90
  · rw [if_pos h]
    have hv : (Char.ofNat (c.toNat + 32)).toNat = c.toNat + 32 :=
      char_toNat_ofNat _ (by omega)
    rw [if_neg (by rw [hv]; omega)]
  · rw [if_neg h, if_neg h]

theorem toLower_not_isUpper (c : Char) : c.toLower.isUpper = false := by
  have h2 := isUpper_iff c.toLower
  rcases hb : (c.toLower).isUpper with _ | _
  · rfl
  · exfalso
    have h3 : 65 ≤ c.toLower.toNat ∧ c.toLower.toNat ≤ 90 := h2.mp hb
    unfold Char.toLower at h3
    by_cases h : c.toNat ≥ 65 ∧ c.toNat ≤ 90
    · rw [if_pos h] at h3
      rw [char_toNat_ofNat _ (by omega)] at h3
      omega
    · rw [if_neg h] at h3
      omega

theorem jsToLower_idem (s : String) : jsToLower (jsToLower s) = jsToLower s := by
  unfold jsToLower
  congr 1
  show (s.data.map Char.toLower).map Char.toLower = s.data.map Char.toLower
  rw [List.map_map]
  exact List.map_congr_left (fun c _ => toLower_idem c)

/-! ## Substring-test helper lemmas -/

theorem containsSub_infix_iff (p l : List Char) : containsSub p l = true ↔ p <:+: l := by
  induction l with
  | nil =>
    simp [containsSub, List.isPrefixOf_iff_prefix]
  | cons c rest ih =>
    simp [containsSub, List.isPrefixOf_iff_prefix, ih, List.infix_cons_iff]

theorem containsSub_singleton (a : Char) (l : List Char) :
    containsSub [a] l = true ↔ a ∈ l := by
  rw [containsSub_infix_iff]
  constructor
  · intro h
    exact h.sublist.subset (by simp)
  · intro h
    obtain ⟨s, t, rfl⟩ := List.append_of_mem h
    exact ⟨s, t, by simp⟩

/-! ## Classifier helper lemmas -/

theorem catTail_spec : ∀ (l : List Char) (x : List Char), catTail l = some x →
    ∀ c ∈ x, isWordChar c = true ∧ c ∈ l := by
  intro l
  induction l with
  | nil => intro x hx; simp [catTail] at hx
  | cons a rest ih =>
    intro x hx c hc
    unfold catTail at hx
    rcases hM : (if isWordChar a then (catTail rest).map (fun x => a :: x) else none) with _ | x1
    · rw [hM] at hx
      simp only [] at hx
      split at hx
      · split at hx
        · injection hx with h1
          subst h1
          simp at hc
        · exact absurd hx (by simp)
      · exact absurd hx (by simp)
    · rw [hM] at hx
      simp only [] at hx
      injection hx with h1
      subst h1
      rcases hw : isWordChar a with _ | _
      · rw [hw] at hM
        exact absurd hM (by simp)
      · rw [hw] at hM
        simp only [if_pos rfl] at hM
        obtain ⟨x2, hct, hx1⟩ := Option.map_eq_some'.mp hM
        subst hx1
        rcases hc with _ | hc2
        · exact ⟨hw, by simp⟩
        · obtain ⟨h1, h2⟩ := ih x2 hct c (by assumption)
          exact ⟨h1, by simp [h2]⟩

theorem ccScan_spec : ∀ (l : List Char) (x : List Char), ccScan l = some x →
    x ≠ [] ∧ ∀ c ∈ x, isWordChar c = true ∧ c ∈ l := by
  intro l
  induction l with
  | nil => intro x hx; simp [ccScan] at hx
  | cons a rest ih =>
    intro x hx
    unfold ccScan at hx
    split at hx
    · rcases hct : catTail (List.drop ccLit.length (a :: rest)) with _ | y
      · rw [hct] at hx
        obtain ⟨h1, h2⟩ := ih x hx
        exact ⟨h1, fun c hc => ⟨(h2 c hc).1, by simp [(h2 c hc).2]⟩⟩
      · rw [hct] at hx
        simp only [] at hx
        by_cases hy : y = []
        · rw [if_pos hy] at hx
          obtain ⟨h1, h2⟩ := ih x hx
          exact ⟨h1, fun c hc => ⟨(h2 c hc).1, by simp [(h2 c hc).2]⟩⟩
        · rw [if_neg hy] at hx
          injection hx with h1
          subst h1
          refine ⟨hy, fun c hc => ?_⟩
          obtain ⟨h1, h2⟩ := catTail_spec _ _ hct c hc
          exact ⟨h1, (List.drop_sublist _ _).subset h2⟩
    · obtain ⟨h1, h2⟩ := ih x hx
      exact ⟨h1, fun c hc => ⟨(h2 c hc).1, by simp [(h2 c hc).2]⟩⟩

/-! ## Claim C7: the top-level-heading-container check -/

/-- Claim C7, counterexample: the claim states that
isHeadingTopContainer returns false for the category verse and for the
category heading; because the source patterns are unanchored regex tests,
both return true (verse contains r and s, heading contains d). -/
theorem claim_C7_counterexample :
    isHeadingTopContainer "verse" = true ∧ isHeadingTopContainer "heading" = true := by
  decide

/-- Claim C7, amended: the check is a substring test, not an exact match:
it returns true exactly when the lowercased input contains the letter r,
the letter s, the letter d, or the two-letter stem mt as a substring
(the ten unanchored patterns collapse to these four tests). -/
theorem claim_C7_substring_semantics (s : String) :
    isHeadingTopContainer s = true ↔
      ('r' ∈ (jsToLower s).data ∨ 's' ∈ (jsToLower s).data ∨
        'd' ∈ (jsToLower s).data ∨ "mt".data <:+: (jsToLower s).data) := by
  constructor
  · intro h
    simp only [isHeadingTopContainer, headingStems, List.any_cons, List.any_nil,
      Bool.or_eq_true, Bool.or_false] at h
    rcases h with h | h | h | h | h | h | h | h | h | h
    · exact Or.inr (Or.inr (Or.inr ((containsSub_infix_iff _ _).mp h)))
    · refine Or.inr (Or.inr (Or.inr ?_))
      exact ((show "mt".data <+: "mte".data by decide).isInfix).trans
        ((containsSub_infix_iff _ _).mp h)
    · exact Or.inr (Or.inl (((containsSub_infix_iff _ _).mp h).sublist.subset (by decide)))
    · exact Or.inl (((containsSub_infix_iff _ _).mp h).sublist.subset (by decide))
    · exact Or.inr (Or.inl ((containsSub_singleton _ _).mp h))
    · exact Or.inr (Or.inl (((containsSub_infix_iff _ _).mp h).sublist.subset (by decide)))
    · exact Or.inl ((containsSub_singleton _ _).mp h)
    · exact Or.inr (Or.inr (Or.inl ((containsSub_singleton _ _).mp h)))
    · exact Or.inr (Or.inl (((containsSub_infix_iff _ _).mp h).sublist.subset (by decide)))
    · exact Or.inr (Or.inl (((containsSub_infix_iff _ _).mp h).sublist.subset (by decide)))
  · intro h
    simp only [isHeadingTopContainer, headingStems, List.any_cons, List.any_nil,
      Bool.or_eq_true, Bool.or_false]
    rcases h with h | h | h | h
    · exact Or.inr (Or.inr (Or.inr (Or.inr (Or.inr (Or.inr (Or.inl
        ((containsSub_singleton _ _).mpr h)))))))
    · exact Or.inr (Or.inr (Or.inr (Or.inr (Or.inl ((containsSub_singleton _ _).mpr h)))))
    · exact Or.inr (Or.inr (Or.inr (Or.inr (Or.inr (Or.inr (Or.inr (Or.inl
        ((containsSub_singleton _ _).mpr h))))))))
    · exact Or.inl ((containsSub_infix_iff _ _).mpr h)

/-! ## Claim C10: the fragment classifier -/

/-- Claim C10: the classifier is case-insensitive (lowering the input
first does not change the result), and its result is either the empty
string or a nonempty string of word characters none of which is an
uppercase letter. -/
theorem claim_C10_classifier_lowercase (s : String) :
    cleanChapterContentClass s = cleanChapterContentClass (jsToLower s) ∧
    (cleanChapterContentClass s = "" ∨
      (cleanChapterContentClass s ≠ "" ∧
        ∀ c ∈ (cleanChapterContentClass s).data, isWordChar c = true ∧ c.isUpper = false)) := by
  constructor
  · unfold cleanChapterContentClass
    rw [jsToLower_idem]
  · rcases hscan : ccScan (jsToLower s).data with _ | x
    · left
      unfold cleanChapterContentClass
      rw [hscan]
    · right
      have hres : cleanChapterContentClass s = String.mk x := by
        unfold cleanChapterContentClass
        rw [hscan]
      obtain ⟨hne, hall⟩ := ccScan_spec _ _ hscan
      constructor
      · rw [hres]
        intro h
        exact hne (congrArg String.data h)
      · intro c hc
        rw [hres] at hc
        have hcx : c ∈ x := hc
        obtain ⟨h1, h2⟩ := hall c hcx
        refine ⟨h1, ?_⟩
        have hm : c ∈ s.data.map Char.toLower := h2
        obtain ⟨a, _, ha2⟩ := List.mem_map.mp hm
        rw [← ha2]
        exact toLower_not_isUpper a

/-! ## Walk invariant lemmas: strictly increasing orders and id shape -/

theorem pairwise_append_one {l : List Verse} {x : Verse}
    (h : l.Pairwise Rord) (hx : ∀ a ∈ l, Rord a x) : (l ++ [x]).Pairwise Rord := by
  rw [List.pairwise_append]
  exact ⟨h, List.pairwise_singleton _ _, fun a ha b hb => by
    rw [List.mem_singleton] at hb
    exact hb ▸ hx a ha⟩

theorem walkDone_of_inv (bk : Nat) (st : WalkState) (h : walkInv bk st) : walkDone bk st :=
  ⟨h.1, h.2.2⟩

theorem emitNewVerse_inv (bk : Nat) (u lbl : String) (st : WalkState)
    (h : walkInv bk st) : walkInv bk (emitNewVerse u lbl bk st) := by
  obtain ⟨h1, h2, h3⟩ := h
  unfold emitNewVerse
  refine ⟨?_, ?_, ?_⟩
  · refine pairwise_append_one h1 (fun a ha => ?_)
    have := h2 a ha
    simp only [Rord]
    split <;> · simp only []; omega
  · intro v hv
    rcases List.mem_append.mp hv with hv | hv
    · exact Nat.le_succ_of_le (h2 v hv)
    · rw [List.mem_singleton] at hv
      subst hv
      split <;> simp
  · intro v hv
    rcases List.mem_append.mp hv with hv | hv
    · exact h3 v hv
    · rw [List.mem_singleton] at hv
      subst hv
      split <;> simp

theorem updateRefAndText_inv (bk : Nat) (sp : Span) (u : String) (st : WalkState)
    (h : walkInv bk st) : walkInv bk (updateRefAndText sp u st) := by
  obtain ⟨h1, h2, h3⟩ := h
  exact ⟨h1, h2, h3⟩

theorem processVerse_inv (bk : Nat) (sp : Span) (st : WalkState)
    (h : walkInv bk st) : walkInv bk (processVerse sp bk st) := by
  unfold processVerse
  rcases jsTruthy sp.dataUsfm with _ | u
  · exact h
  · simp only []
    apply updateRefAndText_inv
    split
    · obtain ⟨h1, h2, h3⟩ := h
      exact ⟨h1, h2, h3⟩
    · split
      · exact emitNewVerse_inv bk u _ st h
      · exact h

theorem finalizeVerse_done (bk ch : Nat) (st : WalkState)
    (h : walkInv bk st) :
    walkDone bk (finalizeVerse (st.chapterVerseOrderCounter + 1) bk ch st) := by
  obtain ⟨h1, h2, h3⟩ := h
  unfold finalizeVerse
  constructor
  · refine pairwise_append_one h1 (fun a ha => ?_)
    have := h2 a ha
    simp only [Rord]
    split <;> · simp only []; omega
  · intro v hv
    rcases List.mem_append.mp hv with hv | hv
    · exact h3 v hv
    · rw [List.mem_singleton] at hv
      subst hv
      split <;> simp

theorem spanStep_inv (bk ch : Nat) (isLastSpan : Bool) (sp : Span) (st : WalkState)
    (h : walkInv bk st) : walkInv bk (spanStep bk ch false isLastSpan sp st) := by
  unfold spanStep
  split
  · exact ⟨h.1, h.2.1, h.2.2⟩
  · split
    · simp only [Bool.false_and, Bool.false_eq_true, if_false]
      exact processVerse_inv bk sp st h
    · exact h

theorem walkSpans_inv_notlast (bk ch : Nat) : ∀ (spans : List Span) (st : WalkState),
    walkInv bk st → walkInv bk (walkSpans bk ch false spans st) := by
  intro spans
  induction spans with
  | nil => intro st h; exact h
  | cons sp rest ih =>
    intro st h
    exact ih _ (spanStep_inv bk ch rest.isEmpty sp st h)

theorem spanStep_last_nonfinal (bk ch : Nat) (sp : Span) (st : WalkState)
    (h : walkInv bk st) : walkInv bk (spanStep bk ch true false sp st) := by
  unfold spanStep
  split
  · exact ⟨h.1, h.2.1, h.2.2⟩
  · split
    · simp only [Bool.and_false, Bool.false_eq_true, if_false]
      exact processVerse_inv bk sp st h
    · exact h

theorem walkSpans_inv_last (bk ch : Nat) : ∀ (spans : List Span) (st : WalkState),
    walkInv bk st →
    (lastIsVerse spans = false → walkInv bk (walkSpans bk ch true spans st)) ∧
    walkDone bk (walkSpans bk ch true spans st) := by
  intro spans
  induction spans with
  | nil => intro st h; exact ⟨fun _ => h, walkDone_of_inv bk st h⟩
  | cons sp rest ih =>
    intro st h
    rcases hrest : rest with _ | ⟨sp2, rest2⟩
    · subst hrest
      show (lastIsVerse [sp] = false → walkInv bk (spanStep bk ch true true sp st)) ∧
        walkDone bk (spanStep bk ch true true sp st)
      by_cases hv : cleanChapterContentClass sp.className = "verse"
      · have hlv : lastIsVerse [sp] = true := by
          simp [lastIsVerse, hv]
        refine ⟨fun hfalse => absurd (hlv ▸ hfalse) (by simp), ?_⟩
        unfold spanStep
        rw [if_neg (by simp [hv]), if_pos hv]
        simp only [Bool.and_self, if_pos]
        exact finalizeVerse_done bk ch _ (processVerse_inv bk sp st h)
      · have hstep : walkInv bk (spanStep bk ch true true sp st) := by
          unfold spanStep
          by_cases hh : cleanChapterContentClass sp.className = "heading" ∨
            cleanChapterContentClass sp.className = "nd"
          · rw [if_pos hh]
            exact ⟨h.1, h.2.1, h.2.2⟩
          · rw [if_neg hh, if_neg hv]
            exact h
        exact ⟨fun _ => hstep, walkDone_of_inv bk _ hstep⟩
    · subst hrest
      have hlv : lastIsVerse (sp :: sp2 :: rest2) = lastIsVerse (sp2 :: rest2) := by
        simp [lastIsVerse, List.getLast?_cons_cons]
      have hstep : walkInv bk (spanStep bk ch true false sp st) :=
        spanStep_last_nonfinal bk ch sp st h
      have hih := ih _ hstep
      show (lastIsVerse (sp :: sp2 :: rest2) = false →
          walkInv bk (walkSpans bk ch true (sp2 :: rest2)
            (spanStep bk ch true (sp2 :: rest2).isEmpty sp st))) ∧
        walkDone bk (walkSpans bk ch true (sp2 :: rest2)
          (spanStep bk ch true (sp2 :: rest2).isEmpty sp st))
      rw [hlv]
      exact hih

theorem groupStep_notlast_inv (bk ch : Nat) (cc : ChapterGroup) (st : WalkState)
    (h : walkInv bk st) : walkInv bk (groupStep bk ch false cc st) := by
  unfold groupStep
  simp only [Bool.false_and, Bool.false_eq_true, if_false]
  apply walkSpans_inv_notlast
  split
  · exact ⟨h.1, h.2.1, h.2.2⟩
  · exact h

theorem groupStep_last_done (bk ch : Nat) (cc : ChapterGroup) (st : WalkState)
    (h : walkInv bk st)
    (hsafe : ¬(cleanChapterContentClass cc.className = "b" ∧
      lastIsVerse (selectSpans cc) = true)) :
    walkDone bk (groupStep bk ch true cc st) := by
  unfold groupStep
  simp only []
  have h1 : walkInv bk (if isHeadingTopContainer (cleanChapterContentClass cc.className) then
      { st with saveHeaders := nlMerge st.saveHeaders } else st) := by
    split
    · exact ⟨h.1, h.2.1, h.2.2⟩
    · exact h
  by_cases hb : cleanChapterContentClass cc.className = "b"
  · have hlv : lastIsVerse (selectSpans cc) = false := by
      rcases hx : lastIsVerse (selectSpans cc) with _ | _
      · rfl
      · exact absurd ⟨hb, hx⟩ hsafe
    have h2 := (walkSpans_inv_last bk ch (selectSpans cc) _ h1).1 hlv
    rw [if_pos (by simp [hb])]
    exact finalizeVerse_done bk ch _ h2
  · rw [if_neg (by simp [hb])]
    exact (walkSpans_inv_last bk ch (selectSpans cc) _ h1).2

theorem walkGroups_done (bk ch : Nat) : ∀ (groups : List ChapterGroup) (st : WalkState),
    walkInv bk st → lastGroupSafe groups = true →
    walkDone bk (walkGroups bk ch groups st) := by
  intro groups
  induction groups with
  | nil => intro st h _; exact walkDone_of_inv bk st h
  | cons cc rest ih =>
    intro st h hsafe
    rcases hrest : rest with _ | ⟨cc2, rest2⟩
    · subst hrest
      show walkDone bk (groupStep bk ch true cc st)
      apply groupStep_last_done bk ch cc st h
      simp only [lastGroupSafe, List.getLast?_singleton] at hsafe
      intro ⟨hb, hlv⟩
      rw [hb, hlv] at hsafe
      simp at hsafe
    · subst hrest
      have hsafe2 : lastGroupSafe (cc2 :: rest2) = true := by
        simp only [lastGroupSafe, List.getLast?_cons_cons] at hsafe ⊢
        exact hsafe
      exact ih _ (groupStep_notlast_inv bk ch cc st h) hsafe2

/-! ## Claim C2: order monotonicity within a chapter -/

/-- Claim C2, counterexample: the claim states that every chapter walk
emits strictly increasing order values; a chapter whose last group has
category b and ends in a verse span triggers both end-of-chapter
finalizes and emits two records with the same order 1. -/
theorem claim_C2_counterexample :
    ¬ (processChapterContent [bGroup [vSpan "GEN.1.1" "" "In the beginning"]] 1 1
        emptyBookResult).verses.Pairwise (fun a b => a.o < b.o) := by
  intro hp
  have h2 : ((processChapterContent [bGroup [vSpan "GEN.1.1" "" "In the beginning"]] 1 1
      emptyBookResult).verses.map (fun v => v.o)).Pairwise (fun a b => a < b) :=
    List.pairwise_map.mpr hp
  have hmap : (processChapterContent [bGroup [vSpan "GEN.1.1" "" "In the beginning"]] 1 1
      emptyBookResult).verses.map (fun v => v.o) = [1, 1] := by rfl
  rw [hmap] at h2
  exact absurd h2 (by decide)

/-- Claim C2, amended: within a single chapter walk the emitted order
values are strictly increasing, provided the last group does not combine
category b with a final verse-category span (the unguarded
double-finalize case exhibited by the counterexample). -/
theorem claim_C2_order_strict_mono (groups : List ChapterGroup) (bk ch : Nat)
    (hsafe : lastGroupSafe groups = true) :
    (processChapterContent groups bk ch emptyBookResult).verses.Pairwise
      (fun a b => a.o < b.o) := by
  have hinit : walkInv bk (initWalkState bk emptyBookResult) :=
    ⟨List.Pairwise.nil, fun v hv => absurd hv (List.not_mem_nil v),
      fun v hv => absurd hv (List.not_mem_nil v)⟩
  exact (walkGroups_done bk ch groups _ hinit hsafe).1

/-- Claim C2, witness: a two-verse chapter satisfies the side condition
and its orders strictly increase. -/
theorem claim_C2_witness :
    lastGroupSafe [pGroup [vSpan "GEN.1.1" "" "one", vSpan "GEN.1.2" "" "two"]] = true ∧
    (processChapterContent [pGroup [vSpan "GEN.1.1" "" "one", vSpan "GEN.1.2" "" "two"]]
      1 1 emptyBookResult).verses.Pairwise (fun a b => a.o < b.o) :=
  ⟨by decide, claim_C2_order_strict_mono _ 1 1 (by decide)⟩

/-! ## Claim C3: id uniqueness and monotonicity -/

/-- Claim C3, counterexample: the claim states that ids are unique within
a book, including books with underscore-compound chapter tokens; the
chapter tokens 1 underscore 1 and 1 underscore 2 share the numeric
prefix 1 and the per-chapter order restarts, so the first verse of each
chapter gets the same id 1001001, and the id sequence also decreases
between the chapters. -/
theorem claim_C3_counterexample :
    ¬ (((runChapters 1
        [(1, [pGroup [vSpan "GEN.1_1.1" "" "alef", vSpan "GEN.1_1.2" "" "bet"]]),
         (2, [pGroup [vSpan "GEN.1_2.1" "" "gimel"]])] emptyBookResult).verses.map
        (fun v => v.id)).Nodup) := by
  intro h
  have hmap : (runChapters 1
      [(1, [pGroup [vSpan "GEN.1_1.1" "" "alef", vSpan "GEN.1_1.2" "" "bet"]]),
       (2, [pGroup [vSpan "GEN.1_2.1" "" "gimel"]])] emptyBookResult).verses.map
      (fun v => v.id) = ["1001001", "1001002", "1001001"] := by rfl
  rw [hmap] at h
  exact absurd h (by decide)

/-- Claim C3, amended: within a single chapter walk (under the same side
condition as claim C2) every emitted id is the id codec applied to the
record's own book, chapter and order fields, and the (chapter, order)
keys of the emitted records are pairwise distinct; across chapters of a
book, id uniqueness fails when two chapter tokens share one numeric
prefix, as the counterexample shows. -/
theorem claim_C3_id_consistency (groups : List ChapterGroup) (bk ch : Nat)
    (hsafe : lastGroupSafe groups = true) :
    (∀ v ∈ (processChapterContent groups bk ch emptyBookResult).verses,
        v.id = getVerseId bk v.c v.o) ∧
    ((processChapterContent groups bk ch emptyBookResult).verses.map
        (fun v => (v.c, v.o))).Nodup := by
  have hinit : walkInv bk (initWalkState bk emptyBookResult) :=
    ⟨List.Pairwise.nil, fun v hv => absurd hv (List.not_mem_nil v),
      fun v hv => absurd hv (List.not_mem_nil v)⟩
  have hdone := walkGroups_done bk ch groups _ hinit hsafe
  refine ⟨hdone.2, ?_⟩
  refine List.Pairwise.map _ ?_ hdone.1
  intro a b hab
  intro hcontra
  have : a.o = b.o := congrArg Prod.snd hcontra
  exact absurd this (Nat.ne_of_lt hab)

/-- Claim C3, witness: a two-verse chapter in book 4 satisfies the side
condition; its ids agree with the codec and its keys are distinct. -/
theorem claim_C3_witness :
    lastGroupSafe [pGroup [vSpan "NUM.7.1" "" "first", vSpan "NUM.7.2" "" "second"]] = true ∧
    (∀ v ∈ (processChapterContent [pGroup [vSpan "NUM.7.1" "" "first",
        vSpan "NUM.7.2" "" "second"]] 4 7 emptyBookResult).verses,
        v.id = getVerseId 4 v.c v.o) ∧
    ((processChapterContent [pGroup [vSpan "NUM.7.1" "" "first",
        vSpan "NUM.7.2" "" "second"]] 4 7 emptyBookResult).verses.map
        (fun v => (v.c, v.o))).Nodup :=
  ⟨by decide, (claim_C3_id_consistency _ 4 7 (by decide)).1,
    (claim_C3_id_consistency _ 4 7 (by decide)).2⟩

/-! ## Claim C4: the blank-paragraph finalize and double emission -/

/-- Claim C4, counterexample: the claim states that the forced blank
paragraph finalize fires only when the per-fragment logic has not
already finalized at that order, so that no chapter emits two records
with the same final order; the branch is in fact unguarded, and a last
group of category b ending in a verse span makes both finalizes fire at
the same order. -/
theorem claim_C4_counterexample :
    ((processChapterContent [bGroup [vSpan "EXO.2.2" "b" "waters"]] 2 2
        emptyBookResult).verses.map (fun v => v.o)) = [1, 1] ∧
    ¬ ((processChapterContent [bGroup [vSpan "EXO.2.2" "b" "waters"]] 2 2
        emptyBookResult).verses.map (fun v => v.o)).Nodup := by
  refine ⟨by rfl, ?_⟩
  intro h
  have hmap : (processChapterContent [bGroup [vSpan "EXO.2.2" "b" "waters"]] 2 2
      emptyBookResult).verses.map (fun v => v.o) = [1, 1] := by rfl
  rw [hmap] at h
  exact absurd h (by decide)

/-- Claim C4, amended: the blank-paragraph finalize is unconditional,
but when the final b group carries no final verse-category span the
per-fragment finalize cannot fire in that group, and no two records of
the chapter share an order value. -/
theorem claim_C4_no_duplicate_final_order (groups : List ChapterGroup) (bk ch : Nat)
    (hsafe : lastGroupSafe groups = true) :
    ((processChapterContent groups bk ch emptyBookResult).verses.map
        (fun v => v.o)).Nodup := by
  have hinit : walkInv bk (initWalkState bk emptyBookResult) :=
    ⟨List.Pairwise.nil, fun v hv => absurd hv (List.not_mem_nil v),
      fun v hv => absurd hv (List.not_mem_nil v)⟩
  have hdone := walkGroups_done bk ch groups _ hinit hsafe
  refine List.Pairwise.map _ ?_ hdone.1
  intro a b hab
  exact Nat.ne_of_lt hab

/-- Claim C4, witness: a chapter ending in an empty blank-paragraph
group fires the forced finalize exactly once and emits distinct
orders. -/
theorem claim_C4_witness :
    lastGroupSafe [pGroup [vSpan "LEV.3.1" "" "alpha"], bGroup []] = true ∧
    ((processChapterContent [pGroup [vSpan "LEV.3.1" "" "alpha"], bGroup []] 3 3
        emptyBookResult).verses.map (fun v => v.o)).Nodup :=
  ⟨by decide, claim_C4_no_duplicate_final_order _ 3 3 (by decide)⟩

/-! ## Claim C5: chapters with no verse fragments -/

/-- Claim C5, counterexample: the claim states that a chapter with no
verse fragments emits zero records; a chapter whose only group is the
blank-paragraph marker b fires the unconditional end-of-chapter finalize
and emits one synthetic record. -/
theorem claim_C5_counterexample :
    (processChapterContent [bGroup []] 1 1 emptyBookResult).verses.length = 1 ∧
    (processChapterContent [bGroup []] 1 1 emptyBookResult).verses ≠ [] := by
  refine ⟨by rfl, ?_⟩
  intro h
  have h1 : (processChapterContent [bGroup []] 1 1 emptyBookResult).verses.length = 1 := by
    rfl
  rw [h] at h1
  exact absurd h1 (by decide)

/-! ## No-verse-fragment helper lemmas -/

theorem spanStep_no_verse (bk ch : Nat) (ig il : Bool) (sp : Span) (st : WalkState)
    (h : cleanChapterContentClass sp.className ≠ "verse") :
    (spanStep bk ch ig il sp st).verses = st.verses := by
  unfold spanStep
  by_cases hh : cleanChapterContentClass sp.className = "heading" ∨
      cleanChapterContentClass sp.className = "nd"
  · rw [if_pos hh]
  · rw [if_neg hh, if_neg h]

theorem walkSpans_no_verse (bk ch : Nat) (ig : Bool) :
    ∀ (spans : List Span) (st : WalkState),
    (∀ sp ∈ spans, cleanChapterContentClass sp.className ≠ "verse") →
    (walkSpans bk ch ig spans st).verses = st.verses := by
  intro spans
  induction spans with
  | nil => intro st _; rfl
  | cons sp rest ih =>
    intro st h
    show (walkSpans bk ch ig rest (spanStep bk ch ig rest.isEmpty sp st)).verses = st.verses
    rw [ih _ (fun x hx => h x (List.mem_cons_of_mem sp hx)),
      spanStep_no_verse bk ch ig rest.isEmpty sp st (h sp (List.mem_cons_self sp rest))]

theorem groupStep_no_verse (bk ch : Nat) (ig : Bool) (cc : ChapterGroup) (st : WalkState)
    (hs : ∀ sp ∈ selectSpans cc, cleanChapterContentClass sp.className ≠ "verse")
    (hb : ig = true → cleanChapterContentClass cc.className ≠ "b") :
    (groupStep bk ch ig cc st).verses = st.verses := by
  unfold groupStep
  simp only []
  have h0 : (if isHeadingTopContainer (cleanChapterContentClass cc.className) then
      { st with saveHeaders := nlMerge st.saveHeaders } else st).verses = st.verses := by
    split <;> rfl
  split
  · rename_i hcond
    rw [Bool.and_eq_true] at hcond
    exact absurd (by simpa using hcond.2) (hb hcond.1)
  · rw [walkSpans_no_verse bk ch ig (selectSpans cc) _ hs, h0]

/-- Claim C5, amended: a chapter with no verse-category fragments
appends no record to the book result, provided the last group is not the
blank-paragraph marker b; when it is, the counterexample shows one
synthetic record is emitted. -/
theorem claim_C5_no_verse_no_output (groups : List ChapterGroup) (bk ch : Nat)
    (br : BookResultState)
    (h1 : noVerseSpans groups = true) (h2 : lastNotB groups = true) :
    (processChapterContent groups bk ch br).verses = br.verses := by
  show (walkGroups bk ch groups (initWalkState bk br)).verses = br.verses
  have hgen : ∀ (gs : List ChapterGroup) (st : WalkState),
      noVerseSpans gs = true → lastNotB gs = true →
      (walkGroups bk ch gs st).verses = st.verses := by
    intro gs
    induction gs with
    | nil => intro st _ _; rfl
    | cons cc rest ih =>
      intro st hnv hlb
      have hnv1 : ∀ sp ∈ selectSpans cc, cleanChapterContentClass sp.className ≠ "verse" := by
        simp only [noVerseSpans, List.all_cons, Bool.and_eq_true, List.all_eq_true] at hnv
        intro sp hsp
        have := hnv.1 sp hsp
        simpa using this
      have hnvrest : noVerseSpans rest = true := by
        simp only [noVerseSpans, List.all_cons, Bool.and_eq_true] at hnv
        exact hnv.2
      rcases hrest : rest with _ | ⟨cc2, rest2⟩
      · subst hrest
        show (walkGroups bk ch [] (groupStep bk ch true cc st)).verses = st.verses
        have hbne : cleanChapterContentClass cc.className ≠ "b" := by
          simp only [lastNotB, List.getLast?_singleton] at hlb
          simpa using hlb
        exact groupStep_no_verse bk ch true cc st hnv1 (fun _ => hbne)
      · subst hrest
        show (walkGroups bk ch (cc2 :: rest2)
          (groupStep bk ch false cc st)).verses = st.verses
        have hlbrest : lastNotB (cc2 :: rest2) = true := by
          simp only [lastNotB, List.getLast?_cons_cons] at hlb ⊢
          exact hlb
        rw [ih _ hnvrest hlbrest]
        exact groupStep_no_verse bk ch false cc st hnv1 (by simp)
  exact hgen groups _ h1 h2

/-- Claim C5, witness: a chapter holding only a heading group emits
nothing. -/
theorem claim_C5_witness :
    noVerseSpans [pGroup [hSpan "Intro"]] = true ∧
    lastNotB [pGroup [hSpan "Intro"]] = true ∧
    (processChapterContent [pGroup [hSpan "Intro"]] 5 2 emptyBookResult).verses =
      emptyBookResult.verses :=
  ⟨by decide, by decide,
    claim_C5_no_verse_no_output _ 5 2 emptyBookResult (by decide) (by decide)⟩

/-! ## Claim C9: appended records are never modified -/

theorem updateRefAndText_verses (sp : Span) (u : String) (st : WalkState) :
    (updateRefAndText sp u st).verses = st.verses := rfl

theorem processVerse_verses_append (sp : Span) (bk : Nat) (st : WalkState) :
    ∃ t, (processVerse sp bk st).verses = st.verses ++ t := by
  unfold processVerse
  rcases jsTruthy sp.dataUsfm with _ | u
  · exact ⟨[], by simp⟩
  · simp only []
    rw [updateRefAndText_verses]
    split
    · exact ⟨[], by simp⟩
    · split
      · exact ⟨_, rfl⟩
      · exact ⟨[], by simp⟩

theorem finalizeVerse_verses_append (cnt bk ch : Nat) (st : WalkState) :
    ∃ t, (finalizeVerse cnt bk ch st).verses = st.verses ++ t := ⟨_, rfl⟩

theorem spanStep_verses_append (bk ch : Nat) (ig il : Bool) (sp : Span) (st : WalkState) :
    ∃ t, (spanStep bk ch ig il sp st).verses = st.verses ++ t := by
  unfold spanStep
  split
  · exact ⟨[], by simp⟩
  · split
    · split
      · obtain ⟨t1, h1⟩ := processVerse_verses_append sp bk st
        obtain ⟨t2, h2⟩ := finalizeVerse_verses_append
          ((processVerse sp bk st).chapterVerseOrderCounter + 1) bk ch (processVerse sp bk st)
        exact ⟨t1 ++ t2, by rw [h2, h1, List.append_assoc]⟩
      · exact processVerse_verses_append sp bk st
    · exact ⟨[], by simp⟩

theorem walkSpans_verses_append (bk ch : Nat) (ig : Bool) :
    ∀ (spans : List Span) (st : WalkState),
    ∃ t, (walkSpans bk ch ig spans st).verses = st.verses ++ t := by
  intro spans
  induction spans with
  | nil => intro st; exact ⟨[], by simp [walkSpans]⟩
  | cons sp rest ih =>
    intro st
    obtain ⟨t1, h1⟩ := spanStep_verses_append bk ch ig rest.isEmpty sp st
    obtain ⟨t2, h2⟩ := ih (spanStep bk ch ig rest.isEmpty sp st)
    exact ⟨t1 ++ t2, by
      show (walkSpans bk ch ig rest (spanStep bk ch ig rest.isEmpty sp st)).verses = _
      rw [h2, h1, List.append_assoc]⟩

theorem groupStep_verses_append (bk ch : Nat) (ig : Bool) (cc : ChapterGroup)
    (st : WalkState) :
    ∃ t, (groupStep bk ch ig cc st).verses = st.verses ++ t := by
  unfold groupStep
  simp only []
  have h0 : (if isHeadingTopContainer (cleanChapterContentClass cc.className) then
      { st with saveHeaders := nlMerge st.saveHeaders } else st).verses = st.verses := by
    split <;> rfl
  have hmid : ∃ t, (walkSpans bk ch ig (selectSpans cc)
      (if isHeadingTopContainer (cleanChapterContentClass cc.className) then
        { st with saveHeaders := nlMerge st.saveHeaders } else st)).verses =
      st.verses ++ t := by
    obtain ⟨t, ht⟩ := walkSpans_verses_append bk ch ig (selectSpans cc)
      (if isHeadingTopContainer (cleanChapterContentClass cc.className) then
        { st with saveHeaders := nlMerge st.saveHeaders } else st)
    exact ⟨t, by rw [ht, h0]⟩
  split
  · obtain ⟨t1, h1⟩ := hmid
    obtain ⟨t2, h2⟩ :=
      finalizeVerse_verses_append _ bk ch
        (walkSpans bk ch ig (selectSpans cc)
          (if isHeadingTopContainer (cleanChapterContentClass cc.className) then
            { st with saveHeaders := nlMerge st.saveHeaders } else st))
    exact ⟨t1 ++ t2, by rw [h2, h1, List.append_assoc]⟩
  · exact hmid

theorem walkGroups_verses_append (bk ch : Nat) :
    ∀ (groups : List ChapterGroup) (st : WalkState),
    ∃ t, (walkGroups bk ch groups st).verses = st.verses ++ t := by
  intro groups
  induction groups with
  | nil => intro st; exact ⟨[], by simp [walkGroups]⟩
  | cons cc rest ih =>
    intro st
    obtain ⟨t1, h1⟩ := groupStep_verses_append bk ch rest.isEmpty cc st
    obtain ⟨t2, h2⟩ := ih (groupStep bk ch rest.isEmpty cc st)
    exact ⟨t1 ++ t2, by
      show (walkGroups bk ch rest (groupStep bk ch rest.isEmpty cc st)).verses = _
      rw [h2, h1, List.append_assoc]⟩

/-- Claim C9: every step of the chapter walk only appends to the list of
emitted verse records — the records already in the book result are an
unchanged prefix after any processVerse, finalizeVerse, span step or
whole group walk, so a record, once appended (as a value copy of the
scratch verse), is never modified by later steps of the walk. -/
theorem claim_C9_emitted_records_append_only :
    (∀ (sp : Span) (bk : Nat) (st : WalkState),
      ∃ t, (processVerse sp bk st).verses = st.verses ++ t) ∧
    (∀ (cnt bk ch : Nat) (st : WalkState),
      ∃ t, (finalizeVerse cnt bk ch st).verses = st.verses ++ t) ∧
    (∀ (bk ch : Nat) (ig il : Bool) (sp : Span) (st : WalkState),
      ∃ t, (spanStep bk ch ig il sp st).verses = st.verses ++ t) ∧
    (∀ (bk ch : Nat) (groups : List ChapterGroup) (st : WalkState),
      ∃ t, (walkGroups bk ch groups st).verses = st.verses ++ t) :=
  ⟨processVerse_verses_append, finalizeVerse_verses_append,
    spanStep_verses_append, walkGroups_verses_append⟩

/-! ## Claim C1: split-label verses emit two records -/

/-- Claim C1: a chapter whose two consecutive verse fragments share one
reference but carry nonempty differing sub-labels yields exactly two
verse records, with orders 1 and 2 and equal verse numbers — the
label change is detected as a verse boundary despite the identical
reference, and no merged single record is produced. -/
theorem claim_C1_split_label_two_records (u l1 l2 t1 t2 : String)
    (hu : u ≠ "") (h1 : l1 ≠ "") (h2 : l2 ≠ "") (hne : l2 ≠ l1)
    (ht1 : t1 ≠ "") (ht2 : t2 ≠ "") :
    ((processChapterContent [pGroup [vSpan u l1 t1, vSpan u l2 t2]] 1 4
        emptyBookResult).verses.map (fun v => v.o) = [1, 2]) ∧
    (∃ n, (processChapterContent [pGroup [vSpan u l1 t1, vSpan u l2 t2]] 1 4
        emptyBookResult).verses.map (fun v => v.v) = [n, n]) := by
  have e1 : cleanChapterContentClass "ChapterContent_p__dVKHb" = "p" := rfl
  have e2 : isHeadingTopContainer "p" = false := rfl
  have e3 : cleanChapterContentClass "ChapterContent_verse__57FIw" = "verse" := rfl
  have e4 : cleanChapterContentClass "ChapterContent_label__R2PLt" = "label" := rfl
  have e5 : cleanChapterContentClass "ChapterContent_content__RrUqA" = "content" := rfl
  have d1 : ¬((("verse":String) = "heading") ∨ (("verse":String) = "nd")) := by decide
  have d2 : ("p":String) ≠ "table" := by decide
  have d3 : ("content":String) ≠ "label" := by decide
  have d4 : ("content":String) ≠ "note" := by decide
  have d5 : ("content":String) ≠ "nd" := by decide
  have d6 : ("content":String) ≠ "sc" := by decide
  constructor
  · simp only [processChapterContent, walkGroups, groupStep, spanStep, walkSpans,
      initWalkState, emptyBookResult, selectSpans, pGroup, vSpan, labelSub, contentSub,
      nlMerge, processVerse, emitNewVerse, updateRefAndText, currentLabelOf,
      accumulateContent, jsTruthy, finalizeVerse, cvUpdate, List.find?,
      e1, e2, e3, e4, e5, d1, d2, d3, d4, d5, d6, hu, h1, h2, hne, ht1, ht2,
      List.isEmpty, Bool.false_eq_true, if_false, Bool.and_self, Bool.and_false,
      Bool.and_true, if_true, Bool.true_and, List.foldl, List.map,
      ne_eq, not_false_eq_true, ite_true, ite_false, if_neg, if_pos,
      Nat.zero_add, Nat.add_zero, true_and, and_true, and_self, not_true,
      false_or, or_false, eq_self_iff_true, ite_self]
  · simp only [processChapterContent, walkGroups, groupStep, spanStep, walkSpans,
      initWalkState, emptyBookResult, selectSpans, pGroup, vSpan, labelSub, contentSub,
      nlMerge, processVerse, emitNewVerse, updateRefAndText, currentLabelOf,
      accumulateContent, jsTruthy, finalizeVerse, cvUpdate, List.find?,
      e1, e2, e3, e4, e5, d1, d2, d3, d4, d5, d6, hu, h1, h2, hne, ht1, ht2,
      List.isEmpty, Bool.false_eq_true, if_false, Bool.and_self, Bool.and_false,
      Bool.and_true, if_true, Bool.true_and, List.foldl, List.map,
      ne_eq, not_false_eq_true, ite_true, ite_false, if_neg, if_pos,
      Nat.zero_add, Nat.add_zero, true_and, and_true, and_self, not_true,
      false_or, or_false, eq_self_iff_true, ite_self]
    exact ⟨_, rfl⟩

/-- Claim C1, witness: reference GEN 4 4 with labels a then b emits two
records at orders 1 and 2, both with verse number 4. -/
theorem claim_C1_witness :
    ((processChapterContent [pGroup [vSpan "GEN.4.4" "a" "alpha",
        vSpan "GEN.4.4" "b" "beta"]] 1 4 emptyBookResult).verses.map
        (fun v => v.o) = [1, 2]) ∧
    ((processChapterContent [pGroup [vSpan "GEN.4.4" "a" "alpha",
        vSpan "GEN.4.4" "b" "beta"]] 1 4 emptyBookResult).verses.map
        (fun v => v.v) = [some 4, some 4]) :=
  ⟨(claim_C1_split_label_two_records "GEN.4.4" "a" "b" "alpha" "beta"
      (by decide) (by decide) (by decide) (by decide) (by decide) (by decide)).1,
    by rfl⟩

/-! ## Claim C6: heading consumption at end-of-chapter finalization

The either-order lookup in finalizeVerse is an array-order first match;
it prefers the item at the current order because the pending-heading
list is kept sorted by target order throughout the walk, which the
hdrInv lemmas below establish for every step. -/

theorem find_and_erase_prefer_current (cnt : Nat) :
    ∀ (l : List HeaderItem) (hdA hdB : HeaderItem),
    l.Pairwise Rtar → hdA ∈ l → hdA.target_order = cnt →
    hdB ∈ l → hdB.target_order = cnt + 1 →
    l.find? (fun el => el.target_order == cnt || el.target_order == cnt + 1) = some hdA ∧
    hdB ∈ l.eraseP (fun el => el.target_order == cnt || el.target_order == cnt + 1) := by
  intro l
  induction l with
  | nil => intro hdA hdB _ hA; exact absurd hA (List.not_mem_nil hdA)
  | cons h t ih =>
    intro hdA hdB hp hA htA hB htB
    have hBneA : hdB ≠ hdA := by
      intro hcontra
      rw [hcontra] at htB
      omega
    rcases List.mem_cons.mp hA with hA1 | hA2
    · subst hA1
      have hpred : (hdA.target_order == cnt || hdA.target_order == cnt + 1) = true := by
        simp [htA]
      constructor
      · rw [List.find?_cons_of_pos t hpred]
      · simp only [List.eraseP_cons, hpred, cond_true]
        rcases List.mem_cons.mp hB with hB1 | hB2
        · exact absurd hB1 hBneA
        · exact hB2
    · have hlt : h.target_order < hdA.target_order :=
        (List.pairwise_cons.mp hp).1 hdA hA2
      have hpred : ¬((h.target_order == cnt || h.target_order == cnt + 1) = true) := by
        simp only [Bool.or_eq_true, beq_iff_eq]
        omega
      have hBt : hdB ∈ t := by
        rcases List.mem_cons.mp hB with hB1 | hB2
        · exfalso
          rw [hB1] at htB
          omega
        · exact hB2
      obtain ⟨ih1, ih2⟩ := ih hdA hdB (List.pairwise_cons.mp hp).2 hA2 htA hBt htB
      have hpredf : (h.target_order == cnt || h.target_order == cnt + 1) = false := by
        simp only [Bool.or_eq_false_iff, beq_eq_false_iff_ne, ne_eq]
        omega
      constructor
      · rw [List.find?_cons_of_neg t hpred, ih1]
      · simp only [List.eraseP_cons, hpredf, cond_false]
        exact List.mem_cons_of_mem h ih2

/-- Claim C6: at a finalization whose pending headings are sorted by
target order (the invariant every walk step maintains, see the hdrInv
lemmas), when items exist at both the current order and current order
plus one, the item at the current order is the one consumed — its
trimmed text becomes the heading of the pushed record — and the item at
current order plus one survives in the pending list. -/
theorem claim_C6_take_either_prefers_current (st : WalkState) (cnt bk ch : Nat)
    (hdA hdB : HeaderItem)
    (hsorted : st.saveHeaders.Pairwise Rtar)
    (hA : hdA ∈ st.saveHeaders) (htA : hdA.target_order = cnt)
    (hB : hdB ∈ st.saveHeaders) (htB : hdB.target_order = cnt + 1) :
    ((finalizeVerse cnt bk ch st).verses.getLast?.map (fun v => v.h) =
      some (jsTrim hdA.text)) ∧
    hdB ∈ (finalizeVerse cnt bk ch st).saveHeaders := by
  obtain ⟨hfind, hmem⟩ := find_and_erase_prefer_current cnt st.saveHeaders hdA hdB
    hsorted hA htA hB htB
  unfold finalizeVerse
  rw [hfind]
  simp only []
  constructor
  · rw [List.getLast?_concat]
    rfl
  · exact hmem

/-- Claim C6, witness: with pending headings at target orders 1 and 2
and a finalize at order 1, the order-1 heading is attached and the
order-2 heading survives. -/
theorem claim_C6_witness :
    ((⟨1, "First"⟩ : HeaderItem) ∈
      (⟨"RUT.1.1", "", ⟨"", 8, some 1, some 1, " surely", "", 0, ""⟩,
        [⟨1, "First"⟩, ⟨2, "Second"⟩], 0, 1, [], []⟩ : WalkState).saveHeaders) ∧
    ((finalizeVerse 1 8 1
      (⟨"RUT.1.1", "", ⟨"", 8, some 1, some 1, " surely", "", 0, ""⟩,
        [⟨1, "First"⟩, ⟨2, "Second"⟩], 0, 1, [], []⟩ : WalkState)).verses.getLast?.map
        (fun v => v.h) = some (jsTrim "First")) ∧
    (⟨2, "Second"⟩ : HeaderItem) ∈ (finalizeVerse 1 8 1
      (⟨"RUT.1.1", "", ⟨"", 8, some 1, some 1, " surely", "", 0, ""⟩,
        [⟨1, "First"⟩, ⟨2, "Second"⟩], 0, 1, [], []⟩ : WalkState)).saveHeaders :=
  ⟨by decide,
    (claim_C6_take_either_prefers_current _ 1 8 1 ⟨1, "First"⟩ ⟨2, "Second"⟩
      (by simp [Rtar]) (by simp) (by rfl) (by simp) (by rfl)).1,
    (claim_C6_take_either_prefers_current _ 1 8 1 ⟨1, "First"⟩ ⟨2, "Second"⟩
      (by simp [Rtar]) (by simp) (by rfl) (by simp) (by rfl)).2⟩

/-! ## The pending-heading list stays sorted through the walk -/

theorem bumpFirst_map_target (t : Nat) (txt : String) : ∀ l : List HeaderItem,
    (bumpFirstHeader t txt l).map (fun h => h.target_order) =
      l.map (fun h => h.target_order) := by
  intro l
  induction l with
  | nil => rfl
  | cons h rest ih =>
    unfold bumpFirstHeader
    split
    · simp
    · simp [ih]

theorem nlMerge_map_target : ∀ l : List HeaderItem,
    (nlMerge l).map (fun h => h.target_order) = l.map (fun h => h.target_order) := by
  intro l
  rcases l with _ | ⟨h, rest⟩
  · rfl
  · show (if h.text ≠ "" then ({ h with text := h.text ++ "\n" } : HeaderItem) :: rest
      else h :: rest).map (fun h => h.target_order) = _
    split <;> simp

theorem headersOK_of_map_eq (l1 l2 : List HeaderItem) (hcnt : Nat)
    (hmap : l1.map (fun h => h.target_order) = l2.map (fun h => h.target_order))
    (h : headersOK l2 hcnt) : headersOK l1 hcnt := by
  obtain ⟨h1, h2⟩ := h
  constructor
  · have hp2 : (l2.map (fun h => h.target_order)).Pairwise (fun a b => a < b) :=
      List.pairwise_map.mpr h1
    rw [← hmap] at hp2
    show l1.Pairwise (fun a b => a.target_order < b.target_order)
    exact List.pairwise_map.mp hp2
  · intro it hit
    have hmem : it.target_order ∈ l2.map (fun h => h.target_order) := by
      rw [← hmap]
      exact List.mem_map_of_mem _ hit
    obtain ⟨y, hy1, hy2⟩ := List.mem_map.mp hmem
    rw [← hy2]
    exact h2 y hy1

theorem headersOK_mono (l : List HeaderItem) (hcnt : Nat)
    (h : headersOK l hcnt) : headersOK l (hcnt + 1) :=
  ⟨h.1, fun it hit => Nat.le_succ_of_le (h.2 it hit)⟩

theorem headersOK_eraseP (l : List HeaderItem) (hcnt : Nat) (p : HeaderItem → Bool)
    (h : headersOK l hcnt) : headersOK (l.eraseP p) hcnt :=
  ⟨h.1.sublist (List.eraseP_sublist l),
    fun it hit => h.2 it ((List.eraseP_sublist l).subset hit)⟩

theorem processHeading_headersOK (txt pv : String) (l : List HeaderItem) (hcnt : Nat)
    (h : headersOK l hcnt) : headersOK (processHeading txt pv l hcnt) hcnt := by
  unfold processHeading
  split
  · exact h
  · split
    · exact headersOK_of_map_eq _ l hcnt (bumpFirst_map_target _ _ l) h
    · rename_i hns
      have hnone : l.find? (fun el => el.target_order == hcnt + 1) = none := by
        rcases hfind : l.find? (fun el => el.target_order == hcnt + 1) with _ | y
        · exact hfind
        · rw [hfind] at hns
          simp at hns
      have hne : ∀ x ∈ l, x.target_order ≠ hcnt + 1 := by
        intro x hx
        have := List.find?_eq_none.mp hnone x hx
        simpa using this
      constructor
      · rw [List.pairwise_append]
        refine ⟨h.1, List.pairwise_singleton _ _, fun a ha b hb => ?_⟩
        rw [List.mem_singleton] at hb
        subst hb
        show a.target_order < hcnt + 1
        have hb1 := h.2 a ha
        have hb2 := hne a ha
        omega
      · intro it hit
        rcases List.mem_append.mp hit with hit | hit
        · exact h.2 it hit
        · rw [List.mem_singleton] at hit
          subst hit
          simp

theorem emitNewVerse_hdrInv (bk : Nat) (u lbl : String) (st : WalkState)
    (h : hdrInv st) : hdrInv (emitNewVerse u lbl bk st) := by
  unfold emitNewVerse hdrInv
  simp only []
  split
  · exact headersOK_mono _ _ (headersOK_eraseP _ _ _ h)
  · exact headersOK_mono _ _ h

theorem processVerse_hdrInv (bk : Nat) (sp : Span) (st : WalkState)
    (h : hdrInv st) : hdrInv (processVerse sp bk st) := by
  unfold processVerse
  rcases jsTruthy sp.dataUsfm with _ | u
  · exact h
  · simp only []
    have hupd : ∀ st0 : WalkState, hdrInv st0 → hdrInv (updateRefAndText sp u st0) :=
      fun st0 h0 => h0
    apply hupd
    split
    · exact headersOK_mono _ _ h
    · split
      · exact emitNewVerse_hdrInv bk u _ st h
      · exact h

theorem finalizeVerse_hdrInv (cnt bk ch : Nat) (st : WalkState)
    (h : hdrInv st) : hdrInv (finalizeVerse cnt bk ch st) := by
  unfold finalizeVerse hdrInv
  simp only []
  split
  · exact headersOK_eraseP _ _ _ h
  · exact h

theorem nlMerge_hdrInv (st : WalkState) (h : hdrInv st) :
    hdrInv { st with saveHeaders := nlMerge st.saveHeaders } :=
  headersOK_of_map_eq _ _ _ (nlMerge_map_target st.saveHeaders) h

theorem spanStep_hdrInv (bk ch : Nat) (ig il : Bool) (sp : Span) (st : WalkState)
    (h : hdrInv st) : hdrInv (spanStep bk ch ig il sp st) := by
  unfold spanStep
  split
  · exact processHeading_headersOK _ _ _ _ h
  · split
    · split
      · exact finalizeVerse_hdrInv _ bk ch _ (processVerse_hdrInv bk sp st h)
      · exact processVerse_hdrInv bk sp st h
    · exact h

theorem walkSpans_hdrInv (bk ch : Nat) (ig : Bool) : ∀ (spans : List Span) (st : WalkState),
    hdrInv st → hdrInv (walkSpans bk ch ig spans st) := by
  intro spans
  induction spans with
  | nil => intro st h; exact h
  | cons sp rest ih =>
    intro st h
    exact ih _ (spanStep_hdrInv bk ch ig rest.isEmpty sp st h)

theorem groupStep_hdrInv (bk ch : Nat) (ig : Bool) (cc : ChapterGroup) (st : WalkState)
    (h : hdrInv st) : hdrInv (groupStep bk ch ig cc st) := by
  unfold groupStep
  simp only []
  have h1 : hdrInv (if isHeadingTopContainer (cleanChapterContentClass cc.className) then
      { st with saveHeaders := nlMerge st.saveHeaders } else st) := by
    split
    · exact nlMerge_hdrInv st h
    · exact h
  have h2 := walkSpans_hdrInv bk ch ig (selectSpans cc) _ h1
  split
  · exact finalizeVerse_hdrInv _ bk ch _ h2
  · exact h2

theorem walkGroups_hdrInv (bk ch : Nat) : ∀ (groups : List ChapterGroup) (st : WalkState),
    hdrInv st → hdrInv (walkGroups bk ch groups st) := by
  intro groups
  induction groups with
  | nil => intro st h; exact h
  | cons cc rest ih =>
    intro st h
    exact ih _ (groupStep_hdrInv bk ch rest.isEmpty cc st h)

theorem splitWsStep_fst_ne_nil (c : Char) (st : List (List Char) × Bool)
    (h : st.1 ≠ []) : (splitWsStep c st).1 ≠ [] := by
  unfold splitWsStep
  split
  · split <;> simp [h]
  · split
    · simp
    · simp

theorem splitWs_fst_ne_nil : ∀ w : List Char, (w.foldr splitWsStep ([[]], false)).1 ≠ [] := by
  intro w
  induction w with
  | nil => simp
  | cons c rest ih => exact splitWsStep_fst_ne_nil c _ ih

theorem joinSpace_cons_of_ne_nil (p : List Char) : ∀ ps : List (List Char), ps ≠ [] →
    joinSpace (p :: ps) = p ++ ' ' :: joinSpace ps := by
  intro ps hps
  rcases ps with _ | ⟨q, qs⟩
  · exact absurd rfl hps
  · rfl

theorem joinSpace_cons_cons (c : Char) (p : List Char) (ps : List (List Char)) :
    joinSpace ((c :: p) :: ps) = c :: joinSpace (p :: ps) := by
  rcases ps with _ | ⟨q, qs⟩
  · rfl
  · rfl

theorem collapseF_ws_cons (c : Char) (rest : List Char) (hc : jsWs c = true) :
    collapseF false (c :: rest) = ' ' :: collapseF true rest := by
  rw [collapseF, if_pos hc]
  simp

theorem collapseF_true_skip (c : Char) (rest : List Char) (hc : jsWs c = true) :
    collapseF true (c :: rest) = collapseF true rest := by
  rw [collapseF, if_pos hc]
  simp

theorem collapseF_not_ws (b : Bool) (c : Char) (rest : List Char) (hc : jsWs c = false) :
    collapseF b (c :: rest) = c :: collapseF false rest := by
  rw [collapseF, if_neg (by simp [hc])]

theorem collapseF_true_of_head (rest : List Char) (h : wsHead rest = false) :
    collapseF true rest = collapseF false rest := by
  rcases rest with _ | ⟨d, r2⟩
  · rfl
  · have hd : jsWs d = false := by simpa [wsHead] using h
    rw [collapseF_not_ws true d r2 hd, collapseF_not_ws false d r2 hd]

theorem collapseF_ws_ws (c : Char) (rest : List Char) (hc : jsWs c = true)
    (h : wsHead rest = true) : collapseF false (c :: rest) = collapseF false rest := by
  rcases rest with _ | ⟨d, r2⟩
  · simp [wsHead] at h
  · have hd : jsWs d = true := by simpa [wsHead] using h
    rw [collapseF_ws_cons c _ hc, collapseF_ws_cons d r2 hd, collapseF_true_skip d r2 hd]

theorem collapseF_step (c : Char) (rest : List Char) (st : List (List Char) × Bool)
    (hne : st.1 ≠ [])
    (h1 : joinSpace st.1 = collapseF false rest)
    (h2 : st.2 = wsHead rest) :
    joinSpace (splitWsStep c st).1 = collapseF false (c :: rest) ∧
    (splitWsStep c st).2 = jsWs c := by
  unfold splitWsStep
  by_cases hc : jsWs c = true
  · rw [if_pos hc]
    refine ⟨?_, by simp [hc]⟩
    simp only []
    by_cases hflag : st.2 = true
    · rw [if_pos hflag, h1, collapseF_ws_ws c rest hc (by rw [← h2, hflag])]
    · rw [if_neg hflag, joinSpace_cons_of_ne_nil _ st.1 hne, h1]
      have hwh : wsHead rest = false := by
        rw [← h2]
        simpa using hflag
      rw [collapseF_ws_cons c rest hc, collapseF_true_of_head rest hwh]
      rfl
  · have hc2 : jsWs c = false := by simpa using hc
    rw [if_neg hc]
    rcases hst : st.1 with _ | ⟨p, ps⟩
    · exact absurd hst hne
    · simp only []
      refine ⟨?_, by simp [hc2]⟩
      rw [joinSpace_cons_cons, ← hst, h1, collapseF_not_ws false c rest hc2]

theorem collapseF_spec : ∀ w : List Char,
    joinSpace ((w.foldr splitWsStep ([[]], false)).1) = collapseF false w ∧
    (w.foldr splitWsStep ([[]], false)).2 = wsHead w := by
  intro w
  induction w with
  | nil => exact ⟨rfl, rfl⟩
  | cons c rest ih =>
    have hstep := collapseF_step c rest (rest.foldr splitWsStep ([[]], false))
      (splitWs_fst_ne_nil rest) ih.1 ih.2
    exact ⟨hstep.1, hstep.2⟩

theorem splitWsRuns_eq_collapseF (w : List Char) :
    joinSpace (splitWsRuns w) = collapseF false w := (collapseF_spec w).1

theorem collapseF_onlySp : ∀ (w : List Char) (b : Bool), onlySp (collapseF b w) := by
  intro w
  induction w with
  | nil => intro b c hc; simp [collapseF] at hc
  | cons a rest ih =>
    intro b c hc
    by_cases ha : jsWs a = true
    · rcases b with _ | _
      · rw [collapseF_ws_cons a rest ha] at hc
        rcases List.mem_cons.mp hc with h | h
        · intro _; exact h
        · exact ih true c h
      · rw [collapseF_true_skip a rest ha] at hc
        exact ih true c hc
    · have ha2 : jsWs a = false := by simpa using ha
      rw [collapseF_not_ws b a rest ha2] at hc
      rcases List.mem_cons.mp hc with h | h
      · intro hws
        rw [h] at hws
        rw [hws] at ha2
        exact absurd ha2 (by simp)
      · exact ih false c h

theorem collapseF_true_head_ne : ∀ (w : List Char) (x : Char),
    (collapseF true w).head? = some x → jsWs x = false := by
  intro w
  induction w with
  | nil => intro x hx; simp [collapseF] at hx
  | cons a rest ih =>
    intro x hx
    by_cases ha : jsWs a = true
    · rw [collapseF_true_skip a rest ha] at hx
      exact ih x hx
    · have ha2 : jsWs a = false := by simpa using ha
      rw [collapseF_not_ws true a rest ha2] at hx
      simp only [List.head?_cons, Option.some_inj] at hx
      rw [← hx]
      exact ha2

theorem collapseF_noDouble : ∀ (w : List Char) (b : Bool), noPair ' ' (collapseF b w) := by
  intro w
  induction w with
  | nil => intro b; simp [collapseF, noPair]
  | cons a rest ih =>
    intro b
    by_cases ha : jsWs a = true
    · rcases b with _ | _
      · rw [collapseF_ws_cons a rest ha]
        rw [noPair, List.chain'_cons']
        refine ⟨fun y hy => ?_, ih true⟩
        intro ⟨_, hy2⟩
        have := collapseF_true_head_ne rest y hy
        rw [hy2] at this
        exact absurd this (by simp [jsWs])
      · rw [collapseF_true_skip a rest ha]
        exact ih true
    · have ha2 : jsWs a = false := by simpa using ha
      rw [collapseF_not_ws b a rest ha2]
      rw [noPair, List.chain'_cons']
      refine ⟨fun y hy => ?_, ih false⟩
      intro ⟨hy1, _⟩
      rw [hy1] at ha2
      exact absurd ha2 (by simp [jsWs])

theorem collapseF_noLead (w : List Char)
    (h : ∀ x, w.head? = some x → jsWs x = false) : noLeadSp (collapseF false w) := by
  rcases w with _ | ⟨a, rest⟩
  · intro hc; simp [collapseF] at hc
  · have ha : jsWs a = false := h a rfl
    rw [collapseF_not_ws false a rest ha]
    intro hc
    simp only [List.head?_cons, Option.some_inj] at hc
    rw [hc] at ha
    exact absurd ha (by simp [jsWs])

theorem collapseF_ne_nil : ∀ (w : List Char) (b : Bool), w ≠ [] →
    (∀ x, w.getLast? = some x → jsWs x = false) → collapseF b w ≠ [] := by
  intro w
  induction w with
  | nil => intro b h _; exact absurd rfl h
  | cons a rest ih =>
    intro b _ hlast
    rcases hrest : rest with _ | ⟨d, r2⟩
    · subst hrest
      have ha : jsWs a = false := hlast a (by simp)
      rw [collapseF_not_ws b a [] ha]
      simp
    · subst hrest
      have hlast2 : ∀ x, (d :: r2).getLast? = some x → jsWs x = false := by
        intro x hx
        exact hlast x (by rw [List.getLast?_cons_cons]; exact hx)
      by_cases ha : jsWs a = true
      · rcases b with _ | _
        · rw [collapseF_ws_cons a _ ha]
          simp
        · rw [collapseF_true_skip a _ ha]
          exact ih true (by simp) hlast2
      · have ha2 : jsWs a = false := by simpa using ha
        rw [collapseF_not_ws b a _ ha2]
        simp

theorem getLast?_cons_of_ne_nil (a : Char) (l : List Char) (h : l ≠ []) :
    (a :: l).getLast? = l.getLast? := by
  rcases l with _ | ⟨b, t⟩
  · exact absurd rfl h
  · exact List.getLast?_cons_cons

theorem collapseF_noTrail : ∀ (w : List Char) (b : Bool),
    (∀ x, w.getLast? = some x → jsWs x = false) →
    ∀ y, (collapseF b w).getLast? = some y → y ≠ ' ' := by
  intro w
  induction w with
  | nil => intro b _ y hy; simp [collapseF] at hy
  | cons a rest ih =>
    intro b hlast y hy
    rcases hrest : rest with _ | ⟨d, r2⟩
    · subst hrest
      have ha : jsWs a = false := hlast a (by simp)
      rw [collapseF_not_ws b a [] ha] at hy
      simp only [collapseF] at hy
      simp only [List.getLast?_singleton, Option.some_inj] at hy
      intro hcon
      rw [hy, hcon] at ha
      exact absurd ha (by simp [jsWs])
    · subst hrest
      have hlast2 : ∀ x, (d :: r2).getLast? = some x → jsWs x = false := by
        intro x hx
        exact hlast x (by rw [List.getLast?_cons_cons]; exact hx)
      have hnenil : collapseF true (d :: r2) ≠ [] :=
        collapseF_ne_nil (d :: r2) true (by simp) hlast2
      have hnenil2 : collapseF false (d :: r2) ≠ [] :=
        collapseF_ne_nil (d :: r2) false (by simp) hlast2
      by_cases ha : jsWs a = true
      · rcases b with _ | _
        · rw [collapseF_ws_cons a _ ha] at hy
          rw [getLast?_cons_of_ne_nil ' ' _ hnenil] at hy
          exact ih true hlast2 y hy
        · rw [collapseF_true_skip a _ ha] at hy
          exact ih true hlast2 y hy
      · have ha2 : jsWs a = false := by simpa using ha
        rw [collapseF_not_ws b a _ ha2] at hy
        rw [getLast?_cons_of_ne_nil a _ hnenil2] at hy
        exact ih false hlast2 y hy

theorem dropWhile_head_not : ∀ (l : List Char) (x : Char),
    (l.dropWhile jsWs).head? = some x → jsWs x = false := by
  intro l
  induction l with
  | nil => intro x hx; simp at hx
  | cons c rest ih =>
    intro x hx
    by_cases hc : jsWs c = true
    · rw [List.dropWhile_cons_of_pos hc] at hx
      exact ih x hx
    · rw [List.dropWhile_cons_of_neg hc] at hx
      simp only [List.head?_cons, Option.some_inj] at hx
      rw [← hx]
      simpa using hc

theorem dropWhile_id_of_head (l : List Char)
    (h : ∀ x, l.head? = some x → jsWs x = false) : l.dropWhile jsWs = l := by
  rcases l with _ | ⟨c, rest⟩
  · rfl
  · exact List.dropWhile_cons_of_neg (by simp [h c rfl])

theorem trim_head_not_ws (l : List Char) (x : Char)
    (hx : (trimL l).head? = some x) : jsWs x = false := by
  unfold trimL trimLeftL at hx
  exact dropWhile_head_not _ x hx

theorem trim_last_not_ws (l : List Char) (x : Char)
    (hx : (trimL l).getLast? = some x) : jsWs x = false := by
  unfold trimL trimLeftL at hx
  obtain ⟨pre, hpre⟩ := List.dropWhile_suffix (l := ((l.reverse.dropWhile jsWs).reverse)) jsWs
  have h2 : ((l.reverse.dropWhile jsWs).reverse).getLast? = some x := by
    rw [← hpre, List.getLast?_append, hx]
    rfl
  have h3 : (l.reverse.dropWhile jsWs).head? = some x := by
    have h4 := List.head?_reverse ((l.reverse.dropWhile jsWs).reverse)
    rw [List.reverse_reverse] at h4
    rw [h4]
    exact h2
  exact dropWhile_head_not _ x h3

theorem trim_id (l : List Char) (h1 : onlySp l) (h2 : noLeadSp l) (h3 : noTrailSp l) :
    trimL l = l := by
  unfold trimL trimLeftL
  have hhead : ∀ x, l.head? = some x → jsWs x = false := by
    intro x hx
    rcases hw : jsWs x with _ | _
    · rfl
    · exfalso
      have := h1 x (by
        have := List.mem_of_mem_head? hx
        exact this) hw
      rw [this] at hx
      exact h2 hx
  have hlast : ∀ x, l.getLast? = some x → jsWs x = false := by
    intro x hx
    rcases hw : jsWs x with _ | _
    · rfl
    · exfalso
      have := h1 x (List.mem_of_mem_getLast? hx) hw
      rw [this] at hx
      exact h3 hx
  have e1 : l.reverse.dropWhile jsWs = l.reverse := by
    apply dropWhile_id_of_head
    intro x hx
    rw [List.head?_reverse] at hx
    exact hlast x hx
  rw [e1, List.reverse_reverse]
  exact dropWhile_id_of_head l hhead

theorem collapseF_id : ∀ l : List Char, onlySp l → noPair ' ' l →
    collapseF false l = l ∧
    ((∀ x, l.head? = some x → jsWs x = false) → collapseF true l = l) := by
  intro l
  induction l with
  | nil => intro _ _; exact ⟨rfl, fun _ => rfl⟩
  | cons c rest ih =>
    intro h1 hW
    have h1r : onlySp rest := fun x hx hw => h1 x (List.mem_cons_of_mem c hx) hw
    have hWr : noPair ' ' rest := (List.chain'_cons'.mp hW).2
    obtain ⟨ih1, ih2⟩ := ih h1r hWr
    by_cases hc : jsWs c = true
    · have hcsp : c = ' ' := h1 c (List.mem_cons_self c rest) hc
      have hresthead : ∀ x, rest.head? = some x → jsWs x = false := by
        intro x hx
        rcases hw : jsWs x with _ | _
        · rfl
        · exfalso
          have hxsp : x = ' ' := h1r x (List.mem_of_mem_head? hx) hw
          have := (List.chain'_cons'.mp hW).1 x hx
          rw [hxsp] at this
          rw [hcsp] at this
          exact this ⟨rfl, rfl⟩
      constructor
      · rw [collapseF_ws_cons c rest hc, ih2 hresthead, hcsp]
      · intro hhead
        have := hhead c rfl
        rw [hc] at this
        exact absurd this (by simp)
    · have hc2 : jsWs c = false := by simpa using hc
      refine ⟨?_, fun _ => ?_⟩
      · rw [collapseF_not_ws false c rest hc2, ih1]
      · rw [collapseF_not_ws true c rest hc2, ih1]

theorem rep_id (p0 p1 r : Char) : ∀ l : List Char,
    l.Chain' (fun a b => ¬(a = p0 ∧ b = p1)) → replaceAllPair p0 p1 r l = l
  | [], _ => rfl
  | [c], _ => rfl
  | c :: d :: rest, h => by
    have h1 : ¬(c = p0 ∧ d = p1) := (List.chain'_cons.mp h).1
    unfold replaceAllPair
    rw [if_neg (by simpa using h1)]
    rw [rep_id p0 p1 r (d :: rest) (List.chain'_cons.mp h).2]

theorem rep_ne_nil (p0 p1 r : Char) : ∀ l : List Char, l ≠ [] →
    replaceAllPair p0 p1 r l ≠ []
  | [], h => absurd rfl h
  | [c], _ => by simp [replaceAllPair]
  | c :: d :: rest, _ => by
    unfold replaceAllPair
    split <;> simp

theorem rep_head (p0 p1 r : Char) : ∀ (l : List Char) (x : Char),
    (replaceAllPair p0 p1 r l).head? = some x →
    l.head? = some x ∨ (x = r ∧ l.head? = some p0)
  | [], x, h => by simp [replaceAllPair] at h
  | [c], x, h => by
    left
    simpa [replaceAllPair] using h
  | c :: d :: rest, x, h => by
    unfold replaceAllPair at h
    by_cases hm : c = p0 ∧ d = p1
    · rw [if_pos (by simp [hm.1, hm.2])] at h
      simp only [List.head?_cons, Option.some_inj] at h
      right
      exact ⟨h.symm, by simp [hm.1]⟩
    · rw [if_neg (by simpa using hm)] at h
      simp only [List.head?_cons, Option.some_inj] at h
      left
      simp [h]

theorem rep_mem (p0 p1 r : Char) : ∀ (l : List Char) (x : Char),
    x ∈ replaceAllPair p0 p1 r l → x ∈ l ∨ x = r
  | [], x, h => by simp [replaceAllPair] at h
  | [c], x, h => by
    left
    simpa [replaceAllPair] using h
  | c :: d :: rest, x, h => by
    unfold replaceAllPair at h
    split at h
    · rcases List.mem_cons.mp h with h1 | h2
      · right; exact h1
      · rcases rep_mem p0 p1 r rest x h2 with h3 | h3
        · left; exact List.mem_cons_of_mem c (List.mem_cons_of_mem d h3)
        · right; exact h3
    · rcases List.mem_cons.mp h with h1 | h2
      · left; exact h1 ▸ List.mem_cons_self c (d :: rest)
      · rcases rep_mem p0 p1 r (d :: rest) x h2 with h3 | h3
        · left; exact List.mem_cons_of_mem c h3
        · right; exact h3

theorem rep_last (p0 p1 r : Char) (hr : r ≠ ' ') : ∀ (l : List Char),
    (∀ x, l.getLast? = some x → x ≠ ' ') →
    ∀ y, (replaceAllPair p0 p1 r l).getLast? = some y → y ≠ ' '
  | [], _, y, hy => by simp [replaceAllPair] at hy
  | [c], hl, y, hy => by
    simp only [replaceAllPair, List.getLast?_singleton, Option.some_inj] at hy
    exact hy ▸ hl c rfl
  | c :: d :: rest, hl, y, hy => by
    unfold replaceAllPair at hy
    split at hy
    · rcases hrest : rest with _ | ⟨e, r2⟩
      · subst hrest
        simp only [replaceAllPair, List.getLast?_singleton, Option.some_inj] at hy
        rw [← hy]
        exact hr
      · subst hrest
        rw [getLast?_cons_of_ne_nil r _ (rep_ne_nil p0 p1 r (e :: r2) (by simp))] at hy
        refine rep_last p0 p1 r hr (e :: r2) ?_ y hy
        intro x hx
        refine hl x ?_
        rw [List.getLast?_cons_cons, List.getLast?_cons_cons]
        exact hx
    · rw [getLast?_cons_of_ne_nil c _ (rep_ne_nil p0 p1 r (d :: rest) (by simp))] at hy
      refine rep_last p0 p1 r hr (d :: rest) ?_ y hy
      intro x hx
      refine hl x ?_
      rw [List.getLast?_cons_cons]
      exact hx

theorem rep_chain_pres (p1 r y : Char) (hr : r ≠ ' ') : ∀ (l : List Char),
    noPair ' ' l → noPair y l → noPair y (replaceAllPair ' ' p1 r l)
  | [], _, _ => by simp [replaceAllPair, noPair]
  | [c], _, h => h
  | c :: d :: rest, hW, hy => by
    unfold replaceAllPair
    split
    · rw [noPair, List.chain'_cons']
      constructor
      · intro z _ hcon
        exact hr hcon.1
      · exact rep_chain_pres p1 r y hr rest
          ((List.chain'_cons.mp hW).2.tail) ((List.chain'_cons.mp hy).2.tail)
    · rw [noPair, List.chain'_cons']
      constructor
      · intro z hz hcon
        obtain ⟨hc, hzy⟩ := hcon
        rcases rep_head ' ' p1 r (d :: rest) z hz with h1 | h2
        · simp only [List.head?_cons, Option.some_inj] at h1
          have := (List.chain'_cons.mp hy).1
          rw [hc, h1, hzy] at this
          exact this ⟨rfl, rfl⟩
        · obtain ⟨_, hd⟩ := h2
          simp only [List.head?_cons, Option.some_inj] at hd
          have := (List.chain'_cons.mp hW).1
          rw [hc, hd] at this
          exact this ⟨rfl, rfl⟩
      · exact rep_chain_pres p1 r y hr (d :: rest)
          ((List.chain'_cons.mp hW).2) ((List.chain'_cons.mp hy).2)

theorem rep_chain_est (p1 : Char) (hp1 : p1 ≠ ' ') : ∀ (l : List Char),
    noPair ' ' l → noPair p1 (replaceAllPair ' ' p1 p1 l)
  | [], _ => by simp [replaceAllPair, noPair]
  | [c], _ => by simp [replaceAllPair, noPair]
  | c :: d :: rest, hW => by
    unfold replaceAllPair
    split
    · rw [noPair, List.chain'_cons']
      constructor
      · intro z _ hcon
        exact hp1 hcon.1
      · exact rep_chain_est p1 hp1 rest ((List.chain'_cons.mp hW).2.tail)
    · rename_i hm
      rw [noPair, List.chain'_cons']
      constructor
      · intro z hz hcon
        obtain ⟨hc, hzp⟩ := hcon
        rcases rep_head ' ' p1 p1 (d :: rest) z hz with h1 | h2
        · simp only [List.head?_cons, Option.some_inj] at h1
          apply hm
          simp only [Bool.and_eq_true, decide_eq_true_eq]
          exact ⟨hc, by rw [h1, hzp]⟩
        · obtain ⟨_, hd⟩ := h2
          simp only [List.head?_cons, Option.some_inj] at hd
          have := (List.chain'_cons.mp hW).1
          rw [hc, hd] at this
          exact this ⟨rfl, rfl⟩
      · exact rep_chain_est p1 hp1 (d :: rest) ((List.chain'_cons.mp hW).2)

theorem rep_onlySp (p0 p1 r : Char) (hr : jsWs r = false) (l : List Char)
    (h : onlySp l) : onlySp (replaceAllPair p0 p1 r l) := by
  intro x hx hw
  rcases rep_mem p0 p1 r l x hx with h1 | h1
  · exact h x h1 hw
  · rw [h1] at hw
    rw [hw] at hr
    exact absurd hr (by simp)

theorem rep_noLead (p0 p1 r : Char) (hr : r ≠ ' ') (l : List Char)
    (h : noLeadSp l) : noLeadSp (replaceAllPair p0 p1 r l) := by
  intro hx
  rcases rep_head p0 p1 r l ' ' hx with h1 | h1
  · exact h h1
  · exact hr h1.1.symm

theorem rep_noTrail (p0 p1 r : Char) (hr : r ≠ ' ') (l : List Char)
    (h : noTrailSp l) : noTrailSp (replaceAllPair p0 p1 r l) := by
  intro hx
  refine rep_last p0 p1 r hr l ?_ ' ' hx rfl
  intro x hlx hxsp
  rw [hxsp] at hlx
  exact h hlx

theorem cleanTextL_NF (l : List Char) : CleanNF (cleanTextL l) := by
  have th := trim_head_not_ws l
  have tlast := trim_last_not_ws l
  have m_only : onlySp (collapseF false (trimL l)) := collapseF_onlySp (trimL l) false
  have m_W : noPair ' ' (collapseF false (trimL l)) := collapseF_noDouble (trimL l) false
  have m_noLead : noLeadSp (collapseF false (trimL l)) := collapseF_noLead (trimL l) th
  have m_noTrail : noTrailSp (collapseF false (trimL l)) := by
    intro hx
    exact collapseF_noTrail (trimL l) false tlast ' ' hx rfl
  have e1 : joinSpace (splitWsRuns (trimL l)) = collapseF false (trimL l) :=
    splitWsRuns_eq_collapseF (trimL l)
  unfold cleanTextL
  rw [e1]
  have hdot : ('.' : Char) ≠ ' ' := by decide
  have hcomma : (',' : Char) ≠ ' ' := by decide
  have m1_only : onlySp (replaceAllPair ' ' '.' '.' (collapseF false (trimL l))) :=
    rep_onlySp ' ' '.' '.' (by decide) _ m_only
  have m1_noLead := rep_noLead ' ' '.' '.' hdot _ m_noLead
  have m1_noTrail := rep_noTrail ' ' '.' '.' hdot _ m_noTrail
  have m1_W := rep_chain_pres '.' '.' ' ' hdot _ m_W m_W
  have m1_D := rep_chain_est '.' hdot _ m_W
  refine ⟨rep_onlySp ' ' ',' ',' (by decide) _ m1_only,
    rep_noLead ' ' ',' ',' hcomma _ m1_noLead,
    rep_noTrail ' ' ',' ',' hcomma _ m1_noTrail,
    rep_chain_pres ',' ',' ' ' hcomma _ m1_W m1_W,
    rep_chain_pres ',' ',' '.' hcomma _ m1_W m1_D,
    rep_chain_est ',' hcomma _ m1_W⟩

theorem cleanTextL_fix (l : List Char) (h : CleanNF l) : cleanTextL l = l := by
  obtain ⟨h1, h2, h3, hW, hD, hC⟩ := h
  unfold cleanTextL
  rw [trim_id l h1 h2 h3, splitWsRuns_eq_collapseF l, (collapseF_id l h1 hW).1,
    rep_id ' ' '.' '.' l hD, rep_id ' ' ',' ',' l hC]

/-- Claim C8: the text cleanup transform is idempotent. -/
theorem claim_C8_cleanText_idempotent (s : String) :
    cleanText (cleanText s) = cleanText s := by
  show String.mk (cleanTextL (String.mk (cleanTextL s.data)).data) =
    String.mk (cleanTextL s.data)
  congr 1
  exact cleanTextL_fix _ (cleanTextL_NF s.data)
